import Mathlib

/-
Shallow embedding of the id-set crate (src/lib.rs, src/store.rs): a bit-vector
set of natural numbers with a hybrid inline/heap word store and a cached
cardinality.  Blocks are 32-bit words modelled as Nat values below 2^32;
bitwise operations use the Nat bitwise primitives, with complement taken
against the 32-bit all-ones mask.  Vec allocation capacities are modelled by
an explicit capacity field holding the minimal capacity Rust guarantees.
-/

namespace IdSetModel

/-- Number of bits in the block type (BITS in lib.rs). -/
def BITS : Nat := 32

/-- Number of blocks in the inline buffer (SIZE in store.rs, 196 / BITS). -/
def SIZE : Nat := 196 / BITS

/-- The all-ones 32-bit block, the value of the Rust expression !0 at type u32. -/
def mask32 : Nat := 2 ^ 32 - 1

/-- Largest usize value (the crate targets 64-bit usize). -/
def usizeMax : Nat := 2 ^ 64 - 1

/-- Bitwise NOT of a u32 block (the Rust operator ! on u32). -/
def bnot32 (w : Nat) : Nat := w ^^^ mask32

/-- u32::count_ones: the number of set bits among bits 0..31. -/
def popcount32 (w : Nat) : Nat := ((List.range 32).filter (fun i => w.testBit i)).length

/-- mask(bit) in lib.rs: (1 as Block) << bit. -/
def mask (bit : Nat) : Nat := 1 <<< bit

/-- ceil_div in lib.rs. -/
def ceil_div (n k : Nat) : Nat := if n % k = 0 then n / k else n / k + 1

/-- Total popcount of a word list. -/
def popSum (ws : List Nat) : Nat := (ws.map popcount32).sum

/-- All words of the list are valid u32 blocks. -/
def WFw (ws : List Nat) : Prop := ∀ b ∈ ws, b < 2 ^ 32

/-- checked_mul on usize: none models Rust overflow. -/
def checked_mul (a b : Nat) : Option Nat :=
  if a * b ≤ usizeMax then some (a * b) else none

/-- BlockStore from store.rs: Stack holds the fixed inline buffer
([Block; SIZE], kept as a list whose length-SIZE invariant lives in WFstore);
Heap holds the Vec contents together with its allocation capacity. -/
inductive BlockStore where
  | Stack (arr : List Nat)
  | Heap (vec : List Nat) (cap : Nat)

namespace BlockStore

/-- The word slice the store dereferences to (Deref in store.rs). -/
def words : BlockStore → List Nat
  | Stack arr => arr
  | Heap vec _ => vec

/-- True on the inline representation. -/
def isStack : BlockStore → Bool
  | Stack _ => true
  | Heap _ _ => false

/-- BlockStore::new. -/
def new : BlockStore := Stack (List.replicate SIZE 0)

/-- BlockStore::with_capacity. -/
def with_capacity (cap : Nat) : BlockStore :=
  if cap < SIZE then Stack (List.replicate SIZE 0) else Heap [] cap

/-- BlockStore::clear: heap storage keeps its allocation, stack is zeroed. -/
def clear : BlockStore → BlockStore
  | Stack _ => Stack (List.replicate SIZE 0)
  | Heap _ cap => Heap [] cap

/-- BlockStore::capacity. -/
def capacity : BlockStore → Nat
  | Stack _ => SIZE
  | Heap _ cap => cap

/-- BlockStore::reserve: note that the heap branch passes the requested
capacity to Vec::reserve, whose argument counts additional elements. -/
def reserve : BlockStore → Nat → BlockStore
  | Stack arr, cap =>
    if SIZE ≤ cap then Heap arr (max cap arr.length) else Stack arr
  | Heap vec c, cap =>
    if SIZE ≤ cap then Heap vec (max c (vec.length + cap)) else Heap vec c

/-- Drop trailing zero words (the pop loop in shrink_to_fit). -/
def dropTrailingZeros (v : List Nat) : List Nat :=
  (v.reverse.dropWhile (fun b => b == 0)).reverse

/-- BlockStore::shrink_to_fit. -/
def shrink_to_fit : BlockStore → BlockStore
  | Stack arr => Stack arr
  | Heap vec _ =>
    let v := dropTrailingZeros vec
    if v.length < SIZE then Stack (v ++ List.replicate (SIZE - v.length) 0)
    else Heap v v.length

/-- BlockStore::drain(idx), with the returned iterator fully consumed:
yields the tail from idx on and zeroes (stack) or removes (heap) those slots. -/
def drain : BlockStore → Nat → (List Nat × BlockStore)
  | Stack arr, idx =>
    (arr.drop idx, Stack (arr.take idx ++ List.replicate (arr.length - idx) 0))
  | Heap vec c, idx => (vec.drop idx, Heap (vec.take idx) c)

/-- Vec::resize(n, 0) on the contents list. -/
def listResize (l : List Nat) (n : Nat) : List Nat :=
  if n ≤ l.length then l.take n else l ++ List.replicate (n - l.length) 0

/-- BlockStore::resize: the stack branch with new_len below SIZE zeroes the
whole inline buffer; otherwise the contents move to a heap vector of the
requested length. -/
def resize : BlockStore → Nat → BlockStore
  | Stack arr, n =>
    if n < SIZE then Stack (arr.map (fun _ => 0))
    else Heap (listResize arr n) (max n arr.length)
  | Heap vec c, n => Heap (listResize vec n) (max c n)

/-- Write one word through DerefMut indexing (self.blocks[word] = v). -/
def setWord : BlockStore → Nat → Nat → BlockStore
  | Stack arr, i, v => Stack (arr.set i v)
  | Heap vec c, i, v => Heap (vec.set i v) c

/-- Replace the whole word sequence through iter_mut writes; the callers below
always supply a list of the same length, so the representation is unchanged. -/
def setWords : BlockStore → List Nat → BlockStore
  | Stack _, ws => Stack ws
  | Heap _ c, ws => Heap ws c

/-- Extend for BlockStore: a stack store always moves to the heap (even for an
empty iterator), with capacity SIZE plus the iterator length hint. -/
def extendB : BlockStore → List Nat → BlockStore
  | Stack arr, l => Heap (arr ++ l) (SIZE + l.length)
  | Heap vec c, l => Heap (vec ++ l) (max c (vec.length + l.length))

/-- FromIterator of blocks for BlockStore, for an exactly-sized source:
short sequences fill the inline buffer (zero padded), longer ones go to heap. -/
def fromBlocks (l : List Nat) : BlockStore :=
  if l.length < SIZE then Stack (l ++ List.replicate (SIZE - l.length) 0)
  else Heap l l.length

end BlockStore

/-- Representation invariant of the store: the inline buffer has exactly SIZE
slots (it is [Block; SIZE] in Rust), all words are u32 values, and a heap
vector never exceeds its capacity. -/
def WFstore : BlockStore → Prop
  | BlockStore.Stack arr => arr.length = SIZE ∧ ∀ b ∈ arr, b < 2 ^ 32
  | BlockStore.Heap vec cap => (∀ b ∈ vec, b < 2 ^ 32) ∧ vec.length ≤ cap

instance (b : BlockStore) : Decidable (WFstore b) :=
  match b with
  | BlockStore.Stack arr =>
    inferInstanceAs (Decidable (arr.length = SIZE ∧ ∀ b ∈ arr, b < 2 ^ 32))
  | BlockStore.Heap vec cap =>
    inferInstanceAs (Decidable ((∀ b ∈ vec, b < 2 ^ 32) ∧ vec.length ≤ cap))

/-- IdSet from lib.rs: a block store plus the cached cardinality. -/
structure IdSet where
  blocks : BlockStore
  len : Nat

namespace IdSet

/-- The stored word sequence of a set. -/
def words (s : IdSet) : List Nat := s.blocks.words

/-- IdSet::new. -/
def new : IdSet := ⟨BlockStore.new, 0⟩

/-- IdSet::new_filled. -/
def new_filled (n : Nat) : IdSet :=
  let nwords := n / BITS
  let nbits := n % BITS
  let bl : List Nat :=
    if nbits ≠ 0 then List.replicate nwords mask32 ++ [mask nbits - 1]
    else List.replicate nwords mask32
  ⟨BlockStore.fromBlocks bl, n⟩

/-- IdSet::with_capacity. -/
def with_capacity (n : Nat) : IdSet :=
  ⟨BlockStore.with_capacity (ceil_div n BITS), 0⟩

/-- IdSet::from_bytes (test constructor in lib.rs): imports raw words and
performs the one full popcount scan. -/
def from_bytes (l : List Nat) : IdSet := ⟨BlockStore.fromBlocks l, popSum l⟩

/-- IdSet::capacity: blocks capacity times BITS with checked multiplication,
unwrap_or(usize::MAX). -/
def capacity (s : IdSet) : Nat :=
  match checked_mul s.blocks.capacity BITS with
  | some v => v
  | none => usizeMax

/-- IdSet::insert. -/
def insert (s : IdSet) (id : Nat) : IdSet × Bool :=
  let word := id / BITS
  let bit := id % BITS
  let m := mask bit
  if word < s.words.length then
    if (s.words.getD word 0) &&& m = 0 then
      (⟨s.blocks.setWord word ((s.words.getD word 0) ||| m), s.len + 1⟩, true)
    else (s, false)
  else
    let b1 := s.blocks.resize (word + 1)
    (⟨b1.setWord word m, s.len + 1⟩, true)

/-- IdSet::remove. -/
def remove (s : IdSet) (id : Nat) : IdSet × Bool :=
  let word := id / BITS
  let bit := id % BITS
  let m := mask bit
  if word < s.words.length then
    if (s.words.getD word 0) &&& m ≠ 0 then
      (⟨s.blocks.setWord word ((s.words.getD word 0) &&& bnot32 m), s.len - 1⟩, true)
    else (s, false)
  else (s, false)

/-- IdSet::contains. -/
def contains (s : IdSet) (id : Nat) : Bool :=
  let word := id / BITS
  let bit := id % BITS
  if word < s.words.length then (s.words.getD word 0) &&& mask bit != 0
  else false

/-- Inner loop of IdSet::retain over the bit positions of one word; the
element id at offset bit is base + bit, and the cardinality drops by one for
every cleared bit. -/
def retainBits (pred : Nat → Bool) (base : Nat) : List Nat → Nat → Nat → Nat × Nat
  | [], w, len => (w, len)
  | bit :: rest, w, len =>
    if w &&& mask bit ≠ 0 ∧ pred (base + bit) = false then
      retainBits pred base rest (w &&& bnot32 (mask bit)) (len - 1)
    else retainBits pred base rest w len

/-- Outer loop of IdSet::retain over the stored words. -/
def retainGo (pred : Nat → Bool) : List Nat → Nat → Nat → List Nat × Nat
  | [], _, len => ([], len)
  | w :: ws, base, len =>
    let p := retainBits pred base (List.range BITS) w len
    let q := retainGo pred ws (base + BITS) p.2
    (p.1 :: q.1, q.2)

/-- IdSet::retain. -/
def retain (s : IdSet) (pred : Nat → Bool) : IdSet :=
  let p := retainGo pred s.words 0 s.len
  ⟨s.blocks.setWords p.1, p.2⟩

/-- IdSet::clear. -/
def clear (s : IdSet) : IdSet := ⟨s.blocks.clear, 0⟩

/-- IdSet::reserve. -/
def reserve (s : IdSet) (cap : Nat) : IdSet :=
  ⟨s.blocks.reserve (ceil_div cap BITS), s.len⟩

/-- IdSet::shrink_to_fit. -/
def shrink_to_fit (s : IdSet) : IdSet := ⟨s.blocks.shrink_to_fit, s.len⟩

/-- IdSet::as_blocks (the dereferenced word slice). -/
def as_blocks (s : IdSet) : List Nat := s.words

end IdSet

/-- Word stream of the Union combinator: pointwise OR, exhausted side zero. -/
def unionBlocks : List Nat → List Nat → List Nat
  | [], [] => []
  | l :: ls, [] => l :: unionBlocks ls []
  | [], r :: rs => r :: unionBlocks [] rs
  | l :: ls, r :: rs => (l ||| r) :: unionBlocks ls rs

/-- Word stream of the Intersection combinator: pointwise AND, ends when
either side ends. -/
def interBlocks : List Nat → List Nat → List Nat
  | l :: ls, r :: rs => (l &&& r) :: interBlocks ls rs
  | _, _ => []

/-- Word stream of the Difference combinator: left AND NOT right, an
exhausted right side supplying unwrap_or(0). -/
def diffBlocks : List Nat → List Nat → List Nat
  | [], _ => []
  | l :: ls, [] => (l &&& bnot32 0) :: diffBlocks ls []
  | l :: ls, r :: rs => (l &&& bnot32 r) :: diffBlocks ls rs

/-- Word stream of the SymmetricDifference combinator: pointwise XOR,
exhausted side passed through. -/
def symDiffBlocks : List Nat → List Nat → List Nat
  | [], [] => []
  | l :: ls, [] => l :: symDiffBlocks ls []
  | [], r :: rs => r :: symDiffBlocks [] rs
  | l :: ls, r :: rs => (l ^^^ r) :: symDiffBlocks ls rs

/-- State of IdIter from lib.rs: the remaining block iterator, the current
partially consumed word, and the bit index of the current word. -/
structure IdIterS where
  blocks : List Nat
  word : Nat
  idx : Nat

/-- The while loop of IdIter::next: skip zero words, adding BITS to the index
per consumed word, until a nonzero word or the end of the stream. -/
def advance : Nat → Nat → List Nat → Option (Nat × Nat × List Nat)
  | word, idx, [] => if word = 0 then none else some (word, idx, [])
  | word, idx, b :: rest =>
    if word = 0 then advance b (idx + BITS) rest else some (word, idx, b :: rest)

/-- IdIter::next: after the skip loop, isolate the lowest set bit with
word & (!word + 1), emit idx plus the popcount of that mask minus one, and
clear the bit with word & (word - 1). -/
def IdIterS.next (s : IdIterS) : Option (Nat × IdIterS) :=
  match advance s.word s.idx s.blocks with
  | none => none
  | some (w, idx, bs) =>
    let bit := (w &&& (bnot32 w + 1)) - 1
    some (idx + popcount32 bit, ⟨bs, w &&& (w - 1), idx⟩)

/-- Run the iterator for at most fuel steps, collecting the emitted ids. -/
def iterList : Nat → IdIterS → List Nat
  | 0, _ => []
  | fuel + 1, s =>
    match s.next with
    | none => []
    | some p => p.1 :: iterList fuel p.2

/-- IdIter::new: pull the first block with unwrap_or(0). -/
def initIter (bs : List Nat) : IdIterS := ⟨bs.drop 1, bs.headD 0, 0⟩

/-- The full id sequence an IdIter over the given blocks emits; the fuel
popSum bs is exactly the number of emitted ids. -/
def idsFromBlocks (bs : List Nat) : List Nat := iterList (popSum bs) (initIter bs)

namespace IdSet

/-- IdSet::iter collected to a list. -/
def toList (s : IdSet) : List Nat := idsFromBlocks s.words

/-- is_subset from lib.rs: cardinality check plus an exact count of the
difference stream. -/
def is_subset (a b : IdSet) : Bool :=
  decide (a.len ≤ b.len) && ((idsFromBlocks (diffBlocks a.words b.words)).length == 0)

/-- is_superset from lib.rs: the negation of other.is_subset(self). -/
def is_superset (a b : IdSet) : Bool := !(b.is_subset a)

/-- is_disjoint from lib.rs: the capacity guard is a conjunct of the result. -/
def is_disjoint (a b : IdSet) : Bool :=
  decide (a.len + b.len < max a.capacity b.capacity) &&
    ((idsFromBlocks (interBlocks a.words b.words)).length == 0)

/-- All blocks are zero (the all closure in PartialEq). -/
def allZero (l : List Nat) : Bool := l.all (fun b => b == 0)

/-- The word comparison loop of PartialEq for IdSet. -/
def eqBlocks : List Nat → List Nat → Bool
  | [], [] => true
  | l :: ls, [] => (l == 0) && allZero ls
  | [], r :: rs => (r == 0) && allZero rs
  | l :: ls, r :: rs => (l == r) && eqBlocks ls rs

/-- PartialEq for IdSet: cardinality short-circuit, then word comparison. -/
def beq (a b : IdSet) : Bool := (a.len == b.len) && eqBlocks a.words b.words

/-- FromIterator of ids for IdSet: repeated insert into an empty set. -/
def fromIds (l : List Nat) : IdSet := l.foldl (fun s id => (s.insert id).1) new

/-- Extend of ids for IdSet: repeated insert. -/
def extendIds (s : IdSet) (l : List Nat) : IdSet :=
  l.foldl (fun s id => (s.insert id).1) s

/-- The zip loop of BitOrAssign: returns the rewritten prefix, the updated
cardinality, and some leftover right blocks when the loop ran off the end of
self (in which case Extend is called), none when the right side ran out first
(the early return). -/
def orGo : List Nat → List Nat → Nat → List Nat × Nat × Option (List Nat)
  | [], rs, len => ([], len, some rs)
  | l :: ls, [], len => (l :: ls, len, none)
  | l :: ls, r :: rs, len =>
    let len2 := len + popcount32 (r &&& bnot32 l)
    let p := orGo ls rs len2
    ((l ||| r) :: p.1, p.2.1, p.2.2)

/-- BitOrAssign for IdSet against the word stream of another set. -/
def inplace_union (s : IdSet) (rs : List Nat) : IdSet :=
  match orGo s.words rs s.len with
  | (ws, len, none) => ⟨s.blocks.setWords ws, len⟩
  | (ws, len, some rest) => ⟨(s.blocks.setWords ws).extendB rest, len + popSum rest⟩

/-- The zip loop of BitXorAssign, with the same extend/early-return shape as
orGo; the cardinality is adjusted by removing the old popcount of the left
word and adding the popcount of the xored word. -/
def xorGo : List Nat → List Nat → Nat → List Nat × Nat × Option (List Nat)
  | [], rs, len => ([], len, some rs)
  | l :: ls, [], len => (l :: ls, len, none)
  | l :: ls, r :: rs, len =>
    let len2 := len - popcount32 l + popcount32 (l ^^^ r)
    let p := xorGo ls rs len2
    ((l ^^^ r) :: p.1, p.2.1, p.2.2)

/-- BitXorAssign for IdSet against the word stream of another set. -/
def inplace_symmetric_difference (s : IdSet) (rs : List Nat) : IdSet :=
  match xorGo s.words rs s.len with
  | (ws, len, none) => ⟨s.blocks.setWords ws, len⟩
  | (ws, len, some rest) => ⟨(s.blocks.setWords ws).extendB rest, len + popSum rest⟩

/-- The zip loop of SubAssign: stops at the shorter side, left tail kept. -/
def subGo : List Nat → List Nat → Nat → List Nat × Nat
  | [], _, len => ([], len)
  | l :: ls, [], len => (l :: ls, len)
  | l :: ls, r :: rs, len =>
    let len2 := len - popcount32 (l &&& r)
    let p := subGo ls rs len2
    ((l &&& bnot32 r) :: p.1, p.2)

/-- SubAssign for IdSet against the word stream of another set. -/
def inplace_difference (s : IdSet) (rs : List Nat) : IdSet :=
  let p := subGo s.words rs s.len
  ⟨s.blocks.setWords p.1, p.2⟩

/-- The zip loop of BitAndAssign after the drain: stops at the shorter side. -/
def andZip : List Nat → List Nat → Nat → List Nat × Nat
  | [], _, len => ([], len)
  | l :: ls, [], len => (l :: ls, len)
  | l :: ls, r :: rs, len =>
    let len2 := len - popcount32 (l &&& bnot32 r)
    let p := andZip ls rs len2
    ((l &&& r) :: p.1, p.2)

/-- BitAndAssign for IdSet against the word stream of another set: when the
right side is strictly shorter, the tail of self is drained first (each
drained word lowering the cardinality by its popcount). -/
def inplace_intersection (s : IdSet) (rs : List Nat) : IdSet :=
  let q :=
    if rs.length < s.words.length then
      let d := s.blocks.drain rs.length
      (d.2, s.len - popSum d.1)
    else (s.blocks, s.len)
  let p := andZip q.1.words rs q.2
  ⟨q.1.setWords p.1, p.2⟩

end IdSet

/-- Representation invariant of a set: well-formed store and a cardinality
cache equal to the total popcount. -/
def Inv (s : IdSet) : Prop := WFstore s.blocks ∧ s.len = popSum s.words

instance (s : IdSet) : Decidable (Inv s) :=
  inferInstanceAs (Decidable (_ ∧ _))

/-- Sets reachable from the public constructors by the public mutating
operations named in the specification. -/
inductive Reachable : IdSet → Prop
  | new : Reachable IdSet.new
  | new_filled (n : Nat) : Reachable (IdSet.new_filled n)
  | with_capacity (n : Nat) : Reachable (IdSet.with_capacity n)
  | from_bytes (l : List Nat) : WFw l → Reachable (IdSet.from_bytes l)
  | insert (s : IdSet) (id : Nat) : Reachable s → Reachable (s.insert id).1
  | remove (s : IdSet) (id : Nat) : Reachable s → Reachable (s.remove id).1
  | retain (s : IdSet) (pred : Nat → Bool) : Reachable s → Reachable (s.retain pred)
  | clear (s : IdSet) : Reachable s → Reachable s.clear
  | reserve (s : IdSet) (cap : Nat) : Reachable s → Reachable (s.reserve cap)
  | shrink_to_fit (s : IdSet) : Reachable s → Reachable s.shrink_to_fit
  | extendIds (s : IdSet) (l : List Nat) : Reachable s → Reachable (s.extendIds l)
  | inplace_union (s t : IdSet) : Reachable s → Reachable t →
      Reachable (s.inplace_union t.words)
  | inplace_intersection (s t : IdSet) : Reachable s → Reachable t →
      Reachable (s.inplace_intersection t.words)
  | inplace_difference (s t : IdSet) : Reachable s → Reachable t →
      Reachable (s.inplace_difference t.words)
  | inplace_symmetric_difference (s t : IdSet) : Reachable s → Reachable t →
      Reachable (s.inplace_symmetric_difference t.words)

/-- Modelled from the spec: the Complement combinator is described in the
specification (section 4.3) but no Complement type exists anywhere under src,
so its step function is modelled from the words of the spec: every call
returns the bitwise NOT of the next source word, or the all-ones word once
the source is exhausted, and a word is produced at every call (the stream
never terminates on its own). -/
def complementStep : List Nat → Nat × List Nat
  | [] => (bnot32 0, [])
  | b :: rest => (bnot32 b, rest)

/-- The word the complement stream yields at position n. -/
def complementNth : List Nat → Nat → Nat
  | src, 0 => (complementStep src).1
  | src, n + 1 => complementNth (complementStep src).2 n

/-- Membership view of a word list: bit (i mod 32) of word (i div 32),
missing words reading as zero. -/
def bitAt (ws : List Nat) (i : Nat) : Bool := (ws.getD (i / BITS) 0).testBit (i % BITS)

theorem mask_eq (b : Nat) : mask b = 2 ^ b := by
  simp [mask, Nat.shiftLeft_eq]

theorem SIZE_eq : SIZE = 6 := by decide

theorem mask32_lt : mask32 < 2 ^ 32 :=
  Nat.sub_lt (Nat.two_pow_pos 32) Nat.one_pos

theorem testBit_mask32 (i : Nat) : mask32.testBit i = decide (i < 32) := by
  simpa [mask32] using Nat.testBit_two_pow_sub_one 32 i

theorem testBit_ge_32 {w i : Nat} (hw : w < 2 ^ 32) (hi : 32 ≤ i) :
    w.testBit i = false :=
  Nat.testBit_lt_two_pow (lt_of_lt_of_le hw (Nat.pow_le_pow_right (by norm_num) hi))

theorem testBit_lt_32 {w i : Nat} (hw : w < 2 ^ 32) (h : w.testBit i = true) :
    i < 32 := by
  by_contra hge
  rw [testBit_ge_32 hw (le_of_not_lt hge)] at h
  exact Bool.false_ne_true h

theorem testBit_bnot32 {x : Nat} (hx : x < 2 ^ 32) (i : Nat) :
    (bnot32 x).testBit i = (decide (i < 32) && !x.testBit i) := by
  by_cases h : i < 32
  · simp [bnot32, Nat.testBit_xor, testBit_mask32, h]
  · simp [bnot32, Nat.testBit_xor, testBit_mask32, h,
      testBit_ge_32 hx (le_of_not_lt h)]

theorem bnot32_lt_two_pow {x : Nat} (hx : x < 2 ^ 32) : bnot32 x < 2 ^ 32 :=
  Nat.xor_lt_two_pow hx mask32_lt

theorem length_filter_range_lt (t n : Nat) :
    ((List.range n).filter (fun i => decide (i < t))).length = min t n := by
  induction n with
  | zero => simp
  | succ n ih =>
    rw [List.range_succ, List.filter_append, List.length_append, ih]
    by_cases h : n < t
    · simp [List.filter_cons, h]; omega
    · simp [List.filter_cons, h]; omega

theorem popcount32_two_pow_sub_one {t : Nat} (ht : t ≤ 32) :
    popcount32 (2 ^ t - 1) = t := by
  unfold popcount32
  rw [List.filter_congr (fun i _ => by rw [Nat.testBit_two_pow_sub_one])]
  rw [length_filter_range_lt]; omega

theorem popcount32_zero : popcount32 0 = 0 := by
  simp [popcount32]

theorem popcount32_eq_zero {x : Nat} (hx : x < 2 ^ 32) :
    popcount32 x = 0 ↔ x = 0 := by
  constructor
  · intro h
    by_contra h0
    obtain ⟨i, hi⟩ := Nat.ne_zero_implies_bit_true h0
    have hi32 : i < 32 := testBit_lt_32 hx hi
    have hmem : i ∈ (List.range 32).filter (fun i => x.testBit i) :=
      List.mem_filter.2 ⟨List.mem_range.2 hi32, hi⟩
    have hlen := List.length_pos_of_mem hmem
    unfold popcount32 at h
    omega
  · intro h; subst h; exact popcount32_zero

theorem exists_least_bit {w : Nat} (hw : w ≠ 0) :
    ∃ t, w.testBit t = true ∧ ∀ j < t, w.testBit j = false := by
  obtain ⟨i, hi⟩ := Nat.ne_zero_implies_bit_true hw
  have hex : ∃ t, w.testBit t = true := ⟨i, hi⟩
  refine ⟨Nat.find hex, Nat.find_spec hex, ?_⟩
  intro j hj
  have := Nat.find_min hex hj
  simpa using this

theorem mod_two_pow_succ_least {w t : Nat} (ht : w.testBit t = true)
    (hlow : ∀ j < t, w.testBit j = false) : w % 2 ^ (t + 1) = 2 ^ t := by
  apply Nat.eq_of_testBit_eq
  intro i
  rw [Nat.testBit_mod_two_pow, Nat.testBit_two_pow]
  rcases lt_trichotomy i t with h | h | h
  · simp [hlow i h]; omega
  · subst h; simp [ht]
  · have h1 : ¬ i < t + 1 := by omega
    simp [h1]; omega

theorem decomp_least {w t : Nat} (ht : w.testBit t = true)
    (hlow : ∀ j < t, w.testBit j = false) :
    w = 2 ^ (t + 1) * (w / 2 ^ (t + 1)) + 2 ^ t := by
  have := Nat.div_add_mod w (2 ^ (t + 1))
  rw [mod_two_pow_succ_least ht hlow] at this
  omega

theorem testBit_high_of_least {w t : Nat} (ht : w.testBit t = true)
    (hlow : ∀ j < t, w.testBit j = false) {i : Nat} (hit : t < i) :
    w.testBit i = (w / 2 ^ (t + 1)).testBit (i - (t + 1)) := by
  conv_lhs => rw [decomp_least ht hlow]
  rw [Nat.testBit_mul_pow_two_add _ (Nat.pow_lt_pow_right (by norm_num) (Nat.lt_succ_self t)) i]
  simp [Nat.not_lt.2 hit]

theorem testBit_pred_of_least {w t : Nat} (ht : w.testBit t = true)
    (hlow : ∀ j < t, w.testBit j = false) (i : Nat) :
    (w - 1).testBit i = if i < t + 1 then decide (i < t) else w.testBit i := by
  have hpos : 0 < 2 ^ t := Nat.two_pow_pos t
  have hd := decomp_least ht hlow
  have hsub : w - 1 = 2 ^ (t + 1) * (w / 2 ^ (t + 1)) + (2 ^ t - 1) := by omega
  have hlt : 2 ^ t - 1 < 2 ^ (t + 1) := by
    have : (2 : Nat) ^ (t + 1) = 2 * 2 ^ t := by ring
    omega
  rw [hsub, Nat.testBit_mul_pow_two_add _ hlt i]
  by_cases h : i < t + 1
  · simp [h, Nat.testBit_two_pow_sub_one]
  · simp only [h, if_false]
    rw [testBit_high_of_least ht hlow (by omega)]

theorem testBit_sub_least {w t : Nat} (ht : w.testBit t = true)
    (hlow : ∀ j < t, w.testBit j = false) (i : Nat) :
    (w - 2 ^ t).testBit i = (w.testBit i && decide (i ≠ t)) := by
  have hd := decomp_least ht hlow
  have hsub : w - 2 ^ t = 2 ^ (t + 1) * (w / 2 ^ (t + 1)) := by omega
  rw [hsub, Nat.testBit_mul_pow_two]
  rcases lt_trichotomy i t with h | h | h
  · simp [hlow i h]; omega
  · subst h; simp
  · have h1 : i ≥ t + 1 := by omega
    rw [testBit_high_of_least ht hlow h]
    simp [h1]
    intro hne; omega

theorem bnot32_eq_sub {w : Nat} (hw : w < 2 ^ 32) :
    bnot32 w = 2 ^ 32 - (w + 1) := by
  apply Nat.eq_of_testBit_eq
  intro i
  rw [Nat.testBit_two_pow_sub_succ hw, testBit_bnot32 hw]

theorem bnot32_add_one {w : Nat} (_h0 : w ≠ 0) (hw : w < 2 ^ 32) :
    bnot32 w + 1 = 2 ^ 32 - w := by
  rw [bnot32_eq_sub hw]
  have : w + 1 ≤ 2 ^ 32 := hw
  omega

theorem isolate_lsb {w t : Nat} (hw : w < 2 ^ 32) (ht : w.testBit t = true)
    (hlow : ∀ j < t, w.testBit j = false) :
    w &&& (bnot32 w + 1) = 2 ^ t := by
  have h0 : w ≠ 0 := by
    intro h; subst h; rw [Nat.zero_testBit] at ht; exact Bool.false_ne_true ht
  have ht32 : t < 32 := testBit_lt_32 hw ht
  rw [bnot32_add_one h0 hw]
  have hrw : 2 ^ 32 - w = 2 ^ 32 - (w - 1 + 1) := by omega
  apply Nat.eq_of_testBit_eq
  intro i
  rw [Nat.testBit_and, hrw,
    Nat.testBit_two_pow_sub_succ (by omega : w - 1 < 2 ^ 32),
    testBit_pred_of_least ht hlow, Nat.testBit_two_pow]
  rcases lt_trichotomy i t with h | h | h
  · simp [hlow i h]; omega
  · subst h; simp [ht]; omega
  · by_cases h32 : i < 32
    · have h1 : ¬ i < t + 1 := by omega
      simp [h1, h32, ht]
      intro hw2; omega
    · rw [testBit_ge_32 hw (le_of_not_lt h32)]
      simp; omega

theorem clear_lsb {w t : Nat} (ht : w.testBit t = true)
    (hlow : ∀ j < t, w.testBit j = false) :
    w &&& (w - 1) = w - 2 ^ t := by
  apply Nat.eq_of_testBit_eq
  intro i
  rw [Nat.testBit_and, testBit_pred_of_least ht hlow, testBit_sub_least ht hlow]
  rcases lt_trichotomy i t with h | h | h
  · simp [hlow i h, h]
  · subst h; simp
  · have h1 : ¬ i < t + 1 := by omega
    have h2 : i ≠ t := by omega
    simp [h1, h2]

theorem BITS_eq : BITS = 32 := rfl

/-- Ids contributed by one word at a given base index, lowest bit first. -/
def bitsOf (base w : Nat) : List Nat :=
  ((List.range 32).filter (fun i => w.testBit i)).map (fun i => base + i)

/-- Ids of a word sequence starting at a given base index. -/
def wordsIds : Nat → List Nat → List Nat
  | _, [] => []
  | idx, w :: ws => bitsOf idx w ++ wordsIds (idx + BITS) ws

theorem bitsOf_length (base w : Nat) : (bitsOf base w).length = popcount32 w := by
  simp [bitsOf, popcount32]

theorem bitsOf_zero (base : Nat) : bitsOf base 0 = [] := by
  simp [bitsOf]

theorem mem_bitsOf {base w x : Nat} :
    x ∈ bitsOf base w ↔ ∃ i, i < 32 ∧ w.testBit i = true ∧ base + i = x := by
  simp [bitsOf, List.mem_map, List.mem_filter, List.mem_range, and_assoc]

theorem mem_bitsOf_bounds {base w x : Nat} (h : x ∈ bitsOf base w) :
    base ≤ x ∧ x < base + 32 := by
  obtain ⟨i, hi, _, rfl⟩ := mem_bitsOf.1 h
  omega

theorem bitsOf_sorted (base w : Nat) : (bitsOf base w).Sorted (· < ·) := by
  unfold bitsOf
  exact List.Pairwise.map _ (fun a b (h : a < b) => by omega)
    ((List.sorted_lt_range 32).filter _)

theorem mem_wordsIds_ge : ∀ {ws : List Nat} {idx x : Nat},
    x ∈ wordsIds idx ws → idx ≤ x := by
  intro ws
  induction ws with
  | nil => intro idx x h; simp [wordsIds] at h
  | cons w ws ih =>
    intro idx x h
    rcases List.mem_append.1 h with h | h
    · exact (mem_bitsOf_bounds h).1
    · have := ih h
      omega

theorem wordsIds_sorted : ∀ (ws : List Nat) (idx : Nat),
    (wordsIds idx ws).Sorted (· < ·) := by
  intro ws
  induction ws with
  | nil => intro idx; simp [wordsIds]
  | cons w ws ih =>
    intro idx
    unfold wordsIds List.Sorted
    rw [List.pairwise_append]
    refine ⟨bitsOf_sorted idx w, ih (idx + BITS), ?_⟩
    intro a ha b hb
    have h1 := (mem_bitsOf_bounds ha).2
    have h2 := mem_wordsIds_ge hb
    simp [BITS_eq] at h2
    omega

theorem bitAt_cons (w : Nat) (ws : List Nat) (i : Nat) :
    bitAt (w :: ws) i = if i < 32 then w.testBit i else bitAt ws (i - 32) := by
  by_cases h : i < 32
  · simp [bitAt, BITS_eq, Nat.div_eq_of_lt h, Nat.mod_eq_of_lt h, h]
  · obtain ⟨j, rfl⟩ : ∃ j, i = j + 32 := ⟨i - 32, by omega⟩
    simp [bitAt, BITS_eq, Nat.add_div_right, Nat.add_mod_right, h]

theorem bitAt_nil (i : Nat) : bitAt [] i = false := by
  simp [bitAt]

theorem mem_wordsIds : ∀ (ws : List Nat) (idx x : Nat),
    x ∈ wordsIds idx ws ↔ idx ≤ x ∧ bitAt ws (x - idx) = true := by
  intro ws
  induction ws with
  | nil => intro idx x; simp [wordsIds, bitAt_nil]
  | cons w ws ih =>
    intro idx x
    unfold wordsIds
    rw [List.mem_append, mem_bitsOf, ih (idx + BITS) x, bitAt_cons]
    simp only [BITS_eq]
    constructor
    · rintro (⟨i, hi, hb, rfl⟩ | ⟨hle, hb⟩)
      · have h1 : idx + i - idx = i := by omega
        have h2 : i < 32 := hi
        refine ⟨by omega, ?_⟩
        rw [h1]
        simp [h2, hb]
      · have h1 : ¬ x - idx < 32 := by omega
        have h2 : x - idx - 32 = x - (idx + 32) := by omega
        refine ⟨by omega, ?_⟩
        rw [if_neg h1, h2]
        exact hb
    · rintro ⟨hle, hb⟩
      by_cases h : x - idx < 32
      · rw [if_pos h] at hb
        exact Or.inl ⟨x - idx, h, hb, by omega⟩
      · rw [if_neg h] at hb
        refine Or.inr ⟨by omega, ?_⟩
        have h2 : x - idx - 32 = x - (idx + 32) := by omega
        rw [← h2]
        exact hb

theorem mem_wordsIds_zero (ws : List Nat) (x : Nat) :
    x ∈ wordsIds 0 ws ↔ bitAt ws x = true := by
  rw [mem_wordsIds]
  simp

theorem filter_range_least : ∀ {t n : Nat} {p : Nat → Bool}, t < n → p t = true →
    (∀ j < t, p j = false) →
    (List.range n).filter p =
      t :: (List.range n).filter (fun i => p i && decide (i ≠ t)) := by
  intro t
  induction t with
  | zero =>
    intro n p htn hpt hlow
    cases n with
    | zero => omega
    | succ m =>
      rw [List.range_succ_eq_map,
        List.filter_cons_of_pos (by simpa using hpt),
        List.filter_cons_of_neg (by simp)]
      congr 1
      apply List.filter_congr
      intro x hx
      obtain ⟨j, _, rfl⟩ := List.mem_map.1 hx
      simp
  | succ t ih =>
    intro n p htn hpt hlow
    cases n with
    | zero => omega
    | succ m =>
      have hp0 : p 0 = false := hlow 0 (Nat.succ_pos t)
      rw [List.range_succ_eq_map,
        List.filter_cons_of_neg (by simp [hp0]),
        List.filter_cons_of_neg (by simp [hp0])]
      rw [List.filter_map, List.filter_map]
      have ih2 := @ih m (fun j => p (j + 1)) (by omega) hpt
        (fun j hj => hlow (j + 1) (by omega))
      have hcongr : (List.range m).filter (fun j => p (j + 1) && decide (j ≠ t)) =
          (List.range m).filter (fun j => p (j + 1) && decide (j + 1 ≠ t + 1)) := by
        apply List.filter_congr
        intro j _
        have : (decide (j ≠ t)) = (decide (j + 1 ≠ t + 1)) := by
          by_cases h : j = t <;> simp [h]
        rw [this]
      have hfun : ((fun i => p i && decide (i ≠ t + 1)) ∘ Nat.succ) =
          (fun j => p (j + 1) && decide (j + 1 ≠ t + 1)) := by
        funext j
        simp [Function.comp, Nat.succ_eq_add_one]
      have hfun2 : (p ∘ Nat.succ) = (fun j => p (j + 1)) := by
        funext j
        simp [Function.comp, Nat.succ_eq_add_one]
      rw [hfun, hfun2, ih2, ← hcongr]
      simp [Nat.succ_eq_add_one]

theorem bitsOf_head {w t : Nat} (hw : w < 2 ^ 32) (ht : w.testBit t = true)
    (hlow : ∀ j < t, w.testBit j = false) (base : Nat) :
    bitsOf base w = (base + t) :: bitsOf base (w - 2 ^ t) := by
  unfold bitsOf
  rw [filter_range_least (testBit_lt_32 hw ht) ht hlow, List.map_cons]
  congr 1
  apply congrArg
  apply List.filter_congr
  intro i _
  rw [testBit_sub_least ht hlow]

theorem popcount32_sub_least {w t : Nat} (hw : w < 2 ^ 32)
    (ht : w.testBit t = true) (hlow : ∀ j < t, w.testBit j = false) :
    popcount32 w = popcount32 (w - 2 ^ t) + 1 := by
  have h := congrArg List.length (bitsOf_head hw ht hlow 0)
  simpa [bitsOf_length] using h

theorem wordsIds_zeros : ∀ {ws : List Nat} (idx : Nat),
    (∀ b ∈ ws, b = 0) → wordsIds idx ws = [] := by
  intro ws
  induction ws with
  | nil => intro idx _; rfl
  | cons w ws ih =>
    intro idx h
    have hw : w = 0 := h w (by simp)
    unfold wordsIds
    rw [hw, bitsOf_zero, List.nil_append]
    exact ih _ (fun b hb => h b (by simp [hb]))

theorem popSum_nil : popSum [] = 0 := rfl

theorem popSum_cons (w : Nat) (ws : List Nat) :
    popSum (w :: ws) = popcount32 w + popSum ws := by
  simp [popSum]

theorem popSum_append (l r : List Nat) : popSum (l ++ r) = popSum l + popSum r := by
  simp [popSum]

theorem popSum_eq_zero {ws : List Nat} (hwf : WFw ws) (h : popSum ws = 0) :
    ∀ b ∈ ws, b = 0 := by
  induction ws with
  | nil => simp
  | cons w ws ih =>
    rw [popSum_cons] at h
    intro b hb
    rcases List.mem_cons.1 hb with rfl | hb
    · exact (popcount32_eq_zero (hwf b (by simp))).1 (by omega)
    · exact ih (fun x hx => hwf x (by simp [hx])) (by omega) b hb

theorem advance_none : ∀ {bs : List Nat} {w idx : Nat},
    advance w idx bs = none → w = 0 ∧ ∀ b ∈ bs, b = 0 := by
  intro bs
  induction bs with
  | nil =>
    intro w idx h
    unfold advance at h
    by_cases hw : w = 0
    · exact ⟨hw, by simp⟩
    · simp [hw] at h
  | cons b rest ih =>
    intro w idx h
    unfold advance at h
    by_cases hw : w = 0
    · rw [if_pos hw] at h
      obtain ⟨hb, hrest⟩ := ih h
      refine ⟨hw, ?_⟩
      intro x hx
      rcases List.mem_cons.1 hx with rfl | hx
      · exact hb
      · exact hrest x hx
    · simp [hw] at h

theorem advance_some_spec : ∀ {bs : List Nat} {w idx : Nat} {w2 idx2 : Nat}
    {bs2 : List Nat}, advance w idx bs = some (w2, idx2, bs2) →
    w2 ≠ 0 ∧ wordsIds idx (w :: bs) = wordsIds idx2 (w2 :: bs2) ∧
    popcount32 w + popSum bs = popcount32 w2 + popSum bs2 ∧
    (WFw (w :: bs) → WFw (w2 :: bs2)) := by
  intro bs
  induction bs with
  | nil =>
    intro w idx w2 idx2 bs2 h
    unfold advance at h
    by_cases hw : w = 0
    · simp [hw] at h
    · rw [if_neg hw] at h
      injection h with h1
      injection h1 with ha hb
      injection hb with hb1 hb2
      subst ha; subst hb1; subst hb2
      exact ⟨hw, rfl, rfl, fun h => h⟩
  | cons b rest ih =>
    intro w idx w2 idx2 bs2 h
    unfold advance at h
    by_cases hw : w = 0
    · rw [if_pos hw] at h
      obtain ⟨h1, h2, h3, h4⟩ := ih h
      subst hw
      refine ⟨h1, ?_, ?_, ?_⟩
      · show bitsOf idx 0 ++ wordsIds (idx + BITS) (b :: rest) = _
        rw [bitsOf_zero, List.nil_append]
        exact h2
      · rw [popcount32_zero, popSum_cons] at *
        omega
      · intro hwf
        apply h4
        intro x hx
        rcases List.mem_cons.1 hx with rfl | hx
        · exact hwf x (by simp)
        · exact hwf x (by simp [hx])
    · rw [if_neg hw] at h
      injection h with h1
      injection h1 with ha hb
      injection hb with hb1 hb2
      subst ha; subst hb1; subst hb2
      exact ⟨hw, rfl, rfl, fun h => h⟩

theorem iterList_spec : ∀ (fuel : Nat) {w idx : Nat} {bs : List Nat},
    WFw (w :: bs) → popcount32 w + popSum bs ≤ fuel →
    iterList fuel ⟨bs, w, idx⟩ = wordsIds idx (w :: bs) := by
  intro fuel
  induction fuel with
  | zero =>
    intro w idx bs hwf hle
    have hw0 : popcount32 w = 0 := by omega
    have hs0 : popSum bs = 0 := by omega
    have hw : w = 0 := (popcount32_eq_zero (hwf w (by simp))).1 hw0
    have hz : ∀ b ∈ bs, b = 0 := popSum_eq_zero (fun x hx => hwf x (by simp [hx])) hs0
    rw [wordsIds_zeros idx (by intro b hb; rcases List.mem_cons.1 hb with rfl | hb
                               · exact hw
                               · exact hz b hb)]
    rfl
  | succ fuel ih =>
    intro w idx bs hwf hle
    show (match IdIterS.next ⟨bs, w, idx⟩ with
      | none => []
      | some p => p.1 :: iterList fuel p.2) = _
    unfold IdIterS.next
    rcases hadv : advance w idx bs with _ | ⟨w2, idx2, bs2⟩
    · simp only
      obtain ⟨hw, hz⟩ := advance_none hadv
      rw [wordsIds_zeros idx (by intro b hb; rcases List.mem_cons.1 hb with rfl | hb
                                 · exact hw
                                 · exact hz b hb)]
    · simp only
      obtain ⟨h0, heq, hcount, hwfimp⟩ := advance_some_spec hadv
      have hwf2 : WFw (w2 :: bs2) := hwfimp hwf
      have hw2 : w2 < 2 ^ 32 := hwf2 w2 (by simp)
      obtain ⟨t, ht, hlow⟩ := exists_least_bit h0
      have ht32 : t < 32 := testBit_lt_32 hw2 ht
      have hiso : w2 &&& (bnot32 w2 + 1) = 2 ^ t := isolate_lsb hw2 ht hlow
      have hclear : w2 &&& (w2 - 1) = w2 - 2 ^ t := clear_lsb ht hlow
      have hpc : popcount32 ((w2 &&& (bnot32 w2 + 1)) - 1) = t := by
        rw [hiso]
        exact popcount32_two_pow_sub_one (by omega)
      have hpcw : popcount32 w2 = popcount32 (w2 - 2 ^ t) + 1 :=
        popcount32_sub_least hw2 ht hlow
      have hwf3 : WFw ((w2 - 2 ^ t) :: bs2) := by
        intro x hx
        rcases List.mem_cons.1 hx with rfl | hx
        · exact lt_of_le_of_lt (Nat.sub_le _ _) hw2
        · exact hwf2 x (by simp [hx])
      have hfuel : popcount32 (w2 - 2 ^ t) + popSum bs2 ≤ fuel := by omega
      rw [hpc, hclear, ih hwf3 hfuel, heq]
      show _ = bitsOf idx2 w2 ++ wordsIds (idx2 + BITS) bs2
      rw [bitsOf_head hw2 ht hlow idx2]
      rfl

theorem idsFromBlocks_eq {bs : List Nat} (hwf : WFw bs) :
    idsFromBlocks bs = wordsIds 0 bs := by
  cases bs with
  | nil => rfl
  | cons w ws =>
    unfold idsFromBlocks initIter
    simp only [List.drop_one, List.headD_cons, List.tail_cons]
    rw [popSum_cons]
    exact iterList_spec _ hwf (le_refl _)

theorem idsFromBlocks_sorted {bs : List Nat} (hwf : WFw bs) :
    (idsFromBlocks bs).Sorted (· < ·) := by
  rw [idsFromBlocks_eq hwf]
  exact wordsIds_sorted bs 0

theorem mem_idsFromBlocks {bs : List Nat} (hwf : WFw bs) (x : Nat) :
    x ∈ idsFromBlocks bs ↔ bitAt bs x = true := by
  rw [idsFromBlocks_eq hwf]
  exact mem_wordsIds_zero bs x

theorem idsFromBlocks_len_zero {bs : List Nat} (hwf : WFw bs) :
    (idsFromBlocks bs).length = 0 ↔ ∀ i, bitAt bs i = false := by
  rw [List.length_eq_zero]
  constructor
  · intro h i
    by_contra hb
    have hb2 : bitAt bs i = true := by
      cases hx : bitAt bs i
      · exact absurd hx hb
      · rfl
    have := (mem_idsFromBlocks hwf i).2 hb2
    rw [h] at this
    simp at this
  · intro h
    rw [List.eq_nil_iff_forall_not_mem]
    intro x hx
    have := (mem_idsFromBlocks hwf x).1 hx
    rw [h x] at this
    exact Bool.false_ne_true this

theorem getD_zero_of_len_le : ∀ {ws : List Nat} {j : Nat},
    ws.length ≤ j → ws.getD j 0 = 0 := by
  intro ws
  induction ws with
  | nil => intro j _; simp
  | cons w ws ih =>
    intro j h
    cases j with
    | zero => simp at h
    | succ j => simpa using ih (by simpa using h)

theorem getD_lt_of_WF {ws : List Nat} (hwf : WFw ws) (j : Nat) :
    ws.getD j 0 < 2 ^ 32 := by
  by_cases h : ws.length ≤ j
  · rw [getD_zero_of_len_le h]
    exact Nat.two_pow_pos 32
  · have hj : j < ws.length := by omega
    have : ws.getD j 0 ∈ ws := by
      rw [List.getD_eq_getElem?_getD, List.getElem?_eq_getElem hj]
      exact List.getElem_mem _
    exact hwf _ this

theorem bitAt_zero_of_ge {ws : List Nat} {i : Nat} (h : ws.length * 32 ≤ i) :
    bitAt ws i = false := by
  unfold bitAt
  rw [getD_zero_of_len_le (by
    have := Nat.div_le_div_right (c := 32) h
    have h2 := Nat.mul_div_cancel (ws.length) (by norm_num : (0:Nat) < 32)
    simp [BITS_eq]
    omega)]
  exact Nat.zero_testBit _

theorem getD_eq_of_bitAt_eq {l r : List Nat} (hl : WFw l) (hr : WFw r)
    (h : ∀ i, bitAt l i = bitAt r i) : ∀ j, l.getD j 0 = r.getD j 0 := by
  intro j
  apply Nat.eq_of_testBit_eq
  intro b
  by_cases hb : b < 32
  · have := h (32 * j + b)
    unfold bitAt at this
    rw [BITS_eq] at this
    rw [Nat.mul_add_div (by norm_num), Nat.mul_add_mod, Nat.div_eq_of_lt hb,
      Nat.mod_eq_of_lt hb, Nat.add_zero] at this
    exact this
  · rw [testBit_ge_32 (getD_lt_of_WF hl j) (by omega),
      testBit_ge_32 (getD_lt_of_WF hr j) (by omega)]

namespace IdSet

theorem allZero_iff {l : List Nat} : allZero l = true ↔ ∀ j, l.getD j 0 = 0 := by
  induction l with
  | nil => simp [allZero]
  | cons x xs ih =>
    unfold allZero at *
    simp only [List.all_cons, Bool.and_eq_true, beq_iff_eq]
    rw [ih]
    constructor
    · rintro ⟨h0, hrest⟩ j
      cases j with
      | zero => simpa using h0
      | succ j => simpa using hrest j
    · intro h
      refine ⟨by simpa using h 0, fun j => by simpa using h (j + 1)⟩

theorem eqBlocks_iff : ∀ (l r : List Nat),
    eqBlocks l r = true ↔ ∀ j, l.getD j 0 = r.getD j 0 := by
  intro l
  induction l with
  | nil =>
    intro r
    cases r with
    | nil => simp [eqBlocks]
    | cons x xs =>
      unfold eqBlocks
      simp only [Bool.and_eq_true, beq_iff_eq]
      rw [allZero_iff]
      constructor
      · rintro ⟨h0, hrest⟩ j
        cases j with
        | zero => simp [h0]
        | succ j => simpa using (hrest j).symm
      · intro h
        refine ⟨by simpa using (h 0).symm, fun j => by simpa using (h (j + 1)).symm⟩
  | cons x xs ih =>
    intro r
    cases r with
    | nil =>
      unfold eqBlocks
      simp only [Bool.and_eq_true, beq_iff_eq]
      rw [allZero_iff]
      constructor
      · rintro ⟨h0, hrest⟩ j
        cases j with
        | zero => simp [h0]
        | succ j => simpa using hrest j
      · intro h
        refine ⟨by simpa using h 0, fun j => by simpa using h (j + 1)⟩
    | cons y ys =>
      unfold eqBlocks
      simp only [Bool.and_eq_true, beq_iff_eq]
      rw [ih ys]
      constructor
      · rintro ⟨h0, hrest⟩ j
        cases j with
        | zero => simpa using h0
        | succ j => simpa using hrest j
      · intro h
        refine ⟨by simpa using h 0, fun j => by simpa using h (j + 1)⟩

theorem eqBlocks_iff_bitAt {l r : List Nat} (hl : WFw l) (hr : WFw r) :
    eqBlocks l r = true ↔ ∀ i, bitAt l i = bitAt r i := by
  rw [eqBlocks_iff]
  constructor
  · intro h i
    unfold bitAt
    rw [h]
  · exact getD_eq_of_bitAt_eq hl hr

end IdSet

theorem getD_replicate_zero : ∀ (k j : Nat), (List.replicate k 0).getD j 0 = 0 := by
  intro k
  induction k with
  | zero => intro j; simp
  | succ k ih =>
    intro j
    cases j with
    | zero => simp [List.replicate_succ]
    | succ j => simp only [List.replicate_succ, List.getD_cons_succ]; exact ih j

theorem getD_append_zeros : ∀ (l : List Nat) (k j : Nat),
    (l ++ List.replicate k 0).getD j 0 = l.getD j 0 := by
  intro l
  induction l with
  | nil => intro k j; rw [List.nil_append, getD_replicate_zero, List.getD_nil]
  | cons x xs ih =>
    intro k j
    cases j with
    | zero => rfl
    | succ j => simpa using ih k j

theorem bitAt_append_zeros (l : List Nat) (k i : Nat) :
    bitAt (l ++ List.replicate k 0) i = bitAt l i := by
  unfold bitAt
  rw [getD_append_zeros]

theorem getD_set_self {ws : List Nat} {j : Nat} (v : Nat) (h : j < ws.length) :
    (ws.set j v).getD j 0 = v := by
  rw [List.getD_eq_getElem?_getD, List.getElem?_set_self h]
  rfl

theorem getD_set_ne {ws : List Nat} {j k : Nat} (v : Nat) (h : j ≠ k) :
    (ws.set j v).getD k 0 = ws.getD k 0 := by
  rw [List.getD_eq_getElem?_getD, List.getElem?_set_ne h, ← List.getD_eq_getElem?_getD]

theorem popSum_set : ∀ (ws : List Nat) (j v : Nat), j < ws.length →
    popSum (ws.set j v) + popcount32 (ws.getD j 0) = popSum ws + popcount32 v := by
  intro ws
  induction ws with
  | nil => intro j v h; simp at h
  | cons w rest ih =>
    intro j v h
    cases j with
    | zero =>
      simp only [List.set_cons_zero, List.getD_cons_zero, popSum_cons]
      omega
    | succ j =>
      simp only [List.set_cons_succ, List.getD_cons_succ, popSum_cons]
      have := ih j v (by simpa using h)
      omega

theorem bitAt_set {ws : List Nat} {j : Nat} (v : Nat) (h : j < ws.length) (i : Nat) :
    bitAt (ws.set j v) i =
      if i / 32 = j then v.testBit (i % 32) else bitAt ws i := by
  unfold bitAt
  rw [BITS_eq]
  by_cases hij : i / 32 = j
  · rw [if_pos hij, hij, getD_set_self v h]
  · rw [if_neg hij, getD_set_ne v (fun he => hij he.symm)]

theorem countP_disjoint : ∀ (l : List Nat) (p q : Nat → Bool),
    (∀ i ∈ l, ¬(p i = true ∧ q i = true)) →
    l.countP (fun i => p i || q i) = l.countP p + l.countP q := by
  intro l
  induction l with
  | nil => intro p q _; simp [List.countP_nil]
  | cons a l ih =>
    intro p q h
    rw [List.countP_cons, List.countP_cons, List.countP_cons,
      ih p q (fun i hi => h i (by simp [hi]))]
    have := h a (by simp)
    cases hp : p a <;> cases hq : q a <;> simp [hp, hq] at * <;> omega

theorem popcount32_eq_countP (w : Nat) :
    popcount32 w = (List.range 32).countP (fun i => w.testBit i) :=
  (List.countP_eq_length_filter _ _).symm

theorem popcount32_congr {x y : Nat} (h : ∀ i < 32, x.testBit i = y.testBit i) :
    popcount32 x = popcount32 y := by
  unfold popcount32
  rw [List.filter_congr (fun i hi => h i (List.mem_range.1 hi))]

theorem popcount32_or_disjoint {x y : Nat}
    (h : ∀ i, ¬(x.testBit i = true ∧ y.testBit i = true)) :
    popcount32 (x ||| y) = popcount32 x + popcount32 y := by
  rw [popcount32_eq_countP, popcount32_eq_countP, popcount32_eq_countP,
    ← countP_disjoint _ _ _ (fun i _ => h i)]
  apply List.countP_congr
  intro i _
  simp [Nat.testBit_or]

theorem popcount32_two_pow {b : Nat} (hb : b < 32) : popcount32 (2 ^ b) = 1 := by
  have h := popcount32_sub_least (w := 2 ^ b) (t := b)
    (Nat.pow_lt_pow_right (by norm_num) hb) Nat.testBit_two_pow_self
    (fun j hj => Nat.testBit_two_pow_of_ne (by omega))
  simpa [popcount32_zero] using h

theorem popcount32_or_two_pow {w b : Nat} (hb : b < 32)
    (h : w.testBit b = false) : popcount32 (w ||| 2 ^ b) = popcount32 w + 1 := by
  rw [popcount32_or_disjoint, popcount32_two_pow hb]
  intro i hi
  rw [Nat.testBit_two_pow] at hi
  obtain ⟨h1, h2⟩ := hi
  have : b = i := of_decide_eq_true h2
  subst this
  rw [h] at h1
  exact Bool.false_ne_true h1

theorem land_mask_ne_zero (w b : Nat) : w &&& 2 ^ b ≠ 0 ↔ w.testBit b = true := by
  constructor
  · intro h
    obtain ⟨i, hi⟩ := Nat.ne_zero_implies_bit_true h
    rw [Nat.testBit_and, Nat.testBit_two_pow, Bool.and_eq_true] at hi
    obtain ⟨h1, h2⟩ := hi
    have hbi : b = i := of_decide_eq_true h2
    subst hbi
    exact h1
  · intro h hzero
    have h2 := congrArg (fun x => x.testBit b) hzero
    simp only [Nat.testBit_and, h, Nat.testBit_two_pow_self, Bool.and_self,
      Nat.zero_testBit] at h2
    exact Bool.noConfusion h2

theorem testBit_bnot32_two_pow {b i : Nat} (hb : b < 32) :
    (bnot32 (2 ^ b)).testBit i = (decide (i < 32) && !decide (b = i)) := by
  rw [testBit_bnot32 (Nat.pow_lt_pow_right (by norm_num) hb), Nat.testBit_two_pow]

theorem popcount32_and_split {w b : Nat} (hw : w < 2 ^ 32) (hb : b < 32) :
    popcount32 w = popcount32 (w &&& 2 ^ b) + popcount32 (w &&& bnot32 (2 ^ b)) := by
  have hsplit : w = (w &&& 2 ^ b) ||| (w &&& bnot32 (2 ^ b)) := by
    apply Nat.eq_of_testBit_eq
    intro i
    rw [Nat.testBit_or, Nat.testBit_and, Nat.testBit_and, Nat.testBit_two_pow,
      testBit_bnot32_two_pow hb]
    by_cases hi : i < 32
    · by_cases hbi : b = i <;> simp [hbi, hi]
    · rw [testBit_ge_32 hw (by omega)]
      simp
  conv_lhs => rw [hsplit]
  apply popcount32_or_disjoint
  intro i hi
  rw [Nat.testBit_and, Nat.testBit_and, Nat.testBit_two_pow,
    testBit_bnot32_two_pow hb] at hi
  obtain ⟨h1, h2⟩ := hi
  rw [Bool.and_eq_true] at h1 h2
  obtain ⟨_, hb1⟩ := h1
  obtain ⟨_, hb2⟩ := h2
  rw [of_decide_eq_true hb1] at hb2
  simp at hb2

theorem popcount32_masked {w b : Nat} (hw : w < 2 ^ 32) (hb : w.testBit b = true) :
    popcount32 (w &&& 2 ^ b) = 1 := by
  have hb32 : b < 32 := testBit_lt_32 hw hb
  rw [popcount32_congr (y := 2 ^ b) ?_]
  · exact popcount32_two_pow hb32
  · intro i _
    rw [Nat.testBit_and, Nat.testBit_two_pow]
    by_cases hbi : b = i
    · subst hbi
      simp [hb]
    · simp [hbi]

theorem land_mask_bne (w b : Nat) : (w &&& 2 ^ b != 0) = w.testBit b := by
  by_cases h : w &&& 2 ^ b = 0
  · have hb : w.testBit b = false := by
      cases hx : w.testBit b
      · rfl
      · exact absurd h ((land_mask_ne_zero w b).2 hx)
    rw [hb, h]
    simp
  · rw [(land_mask_ne_zero w b).1 h]
    exact bne_iff_ne.2 h

theorem wf_words {st : BlockStore} (hwf : WFstore st) : WFw st.words := by
  cases st with
  | Stack arr => exact hwf.2
  | Heap vec c => exact hwf.1

theorem popSum_replicate_zero (k : Nat) : popSum (List.replicate k 0) = 0 := by
  induction k with
  | zero => rfl
  | succ k ih => simp [List.replicate_succ, popSum_cons, popcount32_zero, ih]

theorem popSum_ge_getD : ∀ (ws : List Nat) (j : Nat), j < ws.length →
    popcount32 (ws.getD j 0) ≤ popSum ws := by
  intro ws
  induction ws with
  | nil => intro j h; simp at h
  | cons w rest ih =>
    intro j h
    cases j with
    | zero => simp [popSum_cons]
    | succ j =>
      have := ih j (by simpa using h)
      simp only [List.getD_cons_succ, popSum_cons]
      omega

theorem contains_eq_bitAt (s : IdSet) (i : Nat) :
    IdSet.contains s i = bitAt s.words i := by
  unfold IdSet.contains bitAt
  simp only [BITS_eq, mask_eq]
  by_cases h : i / 32 < s.words.length
  · rw [if_pos h, land_mask_bne]
  · rw [if_neg h, getD_zero_of_len_le (by omega)]
    simp [Nat.zero_testBit]

namespace BlockStore

theorem setWord_words (st : BlockStore) (i v : Nat) :
    (st.setWord i v).words = st.words.set i v := by
  cases st <;> rfl

theorem setWord_WF {st : BlockStore} (hwf : WFstore st) {v : Nat} (i : Nat)
    (hv : v < 2 ^ 32) : WFstore (st.setWord i v) := by
  cases st with
  | Stack arr =>
    obtain ⟨hlen, hb⟩ := hwf
    refine ⟨by simpa using hlen, fun b hbm => ?_⟩
    rcases List.mem_or_eq_of_mem_set hbm with h | rfl
    · exact hb b h
    · exact hv
  | Heap vec c =>
    obtain ⟨hb, hlen⟩ := hwf
    refine ⟨fun b hbm => ?_, by simpa using hlen⟩
    rcases List.mem_or_eq_of_mem_set hbm with h | rfl
    · exact hb b h
    · exact hv

theorem setWords_words (st : BlockStore) (ws : List Nat) :
    (st.setWords ws).words = ws := by
  cases st <;> rfl

theorem setWords_WF {st : BlockStore} (hwf : WFstore st) {ws : List Nat}
    (hlen : ws.length = st.words.length) (hb : WFw ws) :
    WFstore (st.setWords ws) := by
  cases st with
  | Stack arr => exact ⟨by rw [hlen]; exact hwf.1, hb⟩
  | Heap vec c => exact ⟨hb, by rw [hlen]; exact hwf.2⟩

theorem resize_words_grow {st : BlockStore} (hwf : WFstore st) {n : Nat}
    (h : st.words.length < n) :
    (st.resize n).words = st.words ++ List.replicate (n - st.words.length) 0 ∧
    WFstore (st.resize n) := by
  cases st with
  | Stack arr =>
    obtain ⟨hlen, hb⟩ := hwf
    have h2 : arr.length < n := h
    have hn : ¬ n < SIZE := by omega
    have hres : (Stack arr).resize n =
        Heap (arr ++ List.replicate (n - arr.length) 0) (max n arr.length) := by
      show (if n < SIZE then Stack (arr.map (fun _ => 0))
        else Heap (listResize arr n) (max n arr.length)) = _
      rw [if_neg hn]
      unfold listResize
      rw [if_neg (by omega)]
    rw [hres]
    refine ⟨rfl, fun b hbm => ?_, ?_⟩
    · rcases List.mem_append.1 hbm with h1 | h1
      · exact hb b h1
      · rw [List.eq_of_mem_replicate h1]
        exact Nat.two_pow_pos 32
    · simp only [List.length_append, List.length_replicate]
      omega
  | Heap vec c =>
    obtain ⟨hb, hlen⟩ := hwf
    have h2 : vec.length < n := h
    have hres : (Heap vec c).resize n =
        Heap (vec ++ List.replicate (n - vec.length) 0) (max c n) := by
      show Heap (listResize vec n) (max c n) = _
      unfold listResize
      rw [if_neg (by omega)]
    rw [hres]
    refine ⟨rfl, fun b hbm => ?_, ?_⟩
    · rcases List.mem_append.1 hbm with h1 | h1
      · exact hb b h1
      · rw [List.eq_of_mem_replicate h1]
        exact Nat.two_pow_pos 32
    · simp only [List.length_append, List.length_replicate]
      omega

end BlockStore

theorem mod_ne_of_div_eq_ne {i id : Nat} (hij : i / 32 = id / 32) (he : i ≠ id) :
    id % 32 ≠ i % 32 := by
  have h1 := Nat.div_add_mod i 32
  have h2 := Nat.div_add_mod id 32
  omega

theorem ne_of_div_ne {i id : Nat} (hij : i / 32 ≠ id / 32) : i ≠ id :=
  fun h => hij (by rw [h])

theorem insert_spec {s : IdSet} (hs : Inv s) (id : Nat) :
    Inv (s.insert id).1 ∧
    ∀ i, bitAt (s.insert id).1.words i = (bitAt s.words i || decide (i = id)) := by
  obtain ⟨hwf, hlen⟩ := hs
  have hwfw : WFw s.words := wf_words hwf
  have hbit32 : id % 32 < 32 := Nat.mod_lt _ (by norm_num)
  have hmlt : (2 : Nat) ^ (id % 32) < 2 ^ 32 :=
    Nat.pow_lt_pow_right (by norm_num) hbit32
  by_cases h1 : id / BITS < s.words.length
  · by_cases h2 : (s.words.getD (id / BITS) 0) &&& mask (id % BITS) = 0
    · have hres : (s.insert id).1 =
          ⟨s.blocks.setWord (id / BITS)
            ((s.words.getD (id / BITS) 0) ||| mask (id % BITS)), s.len + 1⟩ := by
        simp only [IdSet.insert, if_pos h1, if_pos h2]
      have hb0 : (s.words.getD (id / 32) 0).testBit (id % 32) = false := by
        rw [mask_eq, BITS_eq] at h2
        cases hx : (s.words.getD (id / 32) 0).testBit (id % 32)
        · rfl
        · exact absurd h2 ((land_mask_ne_zero _ _).2 hx)
      have hwords : (s.insert id).1.words =
          s.words.set (id / 32) ((s.words.getD (id / 32) 0) ||| 2 ^ (id % 32)) := by
        rw [hres]
        show (s.blocks.setWord (id / BITS) _).words = _
        rw [BlockStore.setWord_words, mask_eq, BITS_eq]
        rfl
      have hlen1 : id / 32 < s.words.length := by
        rw [BITS_eq] at h1
        exact h1
      refine ⟨⟨?_, ?_⟩, ?_⟩
      · rw [hres]
        show WFstore (s.blocks.setWord _ _)
        exact BlockStore.setWord_WF hwf _
          (Nat.or_lt_two_pow (getD_lt_of_WF hwfw _) (by rw [mask_eq, BITS_eq]; exact hmlt))
      · show (s.insert id).1.len = popSum (s.insert id).1.words
        have hps := popSum_set s.words (id / 32)
          ((s.words.getD (id / 32) 0) ||| 2 ^ (id % 32)) hlen1
        have hpc : popcount32 ((s.words.getD (id / 32) 0) ||| 2 ^ (id % 32)) =
            popcount32 (s.words.getD (id / 32) 0) + 1 :=
          popcount32_or_two_pow hbit32 hb0
        have hlen2 : (s.insert id).1.len = s.len + 1 := by rw [hres]
        rw [hlen2, hwords]
        omega
      · intro i
        rw [hwords, bitAt_set _ hlen1]
        by_cases hij : i / 32 = id / 32
        · rw [if_pos hij]
          rw [Nat.testBit_or, Nat.testBit_two_pow]
          unfold bitAt
          rw [BITS_eq, hij]
          by_cases he : i = id
          · subst he
            simp
          · have hne : id % 32 ≠ i % 32 := mod_ne_of_div_eq_ne hij he
            simp [hne, he]
        · rw [if_neg hij]
          have he : i ≠ id := ne_of_div_ne hij
          simp [he]
    · have hres : (s.insert id).1 = s := by
        simp only [IdSet.insert, if_pos h1, if_neg h2]
      have hb1 : (s.words.getD (id / 32) 0).testBit (id % 32) = true := by
        rw [mask_eq, BITS_eq] at h2
        exact (land_mask_ne_zero _ _).1 h2
      rw [hres]
      refine ⟨⟨hwf, hlen⟩, ?_⟩
      intro i
      by_cases he : i = id
      · subst he
        unfold bitAt
        rw [BITS_eq, hb1]
        simp
      · simp [he]
  · have hgrow : s.words.length < id / BITS + 1 := by omega
    have h1b : s.words.length ≤ id / 32 := by
      rw [BITS_eq] at h1
      omega
    obtain ⟨hw1, hwf1⟩ := BlockStore.resize_words_grow hwf hgrow
    have hw2 : (s.blocks.resize (id / BITS + 1)).words =
        s.words ++ List.replicate (id / 32 + 1 - s.words.length) 0 := by
      rw [hw1, BITS_eq]
      rfl
    have hres : (s.insert id).1 =
        ⟨(s.blocks.resize (id / BITS + 1)).setWord (id / BITS) (mask (id % BITS)),
          s.len + 1⟩ := by
      simp only [IdSet.insert, if_neg h1]
    have hlen1 : id / 32 < (s.blocks.resize (id / BITS + 1)).words.length := by
      rw [hw2]
      simp only [List.length_append, List.length_replicate]
      omega
    have hwords : (s.insert id).1.words =
        (s.blocks.resize (id / BITS + 1)).words.set (id / 32) (2 ^ (id % 32)) := by
      rw [hres]
      show ((s.blocks.resize (id / BITS + 1)).setWord (id / BITS) _).words = _
      rw [BlockStore.setWord_words, mask_eq, BITS_eq]
    have hgd : (s.blocks.resize (id / BITS + 1)).words.getD (id / 32) 0 = 0 := by
      rw [hw2, getD_append_zeros]
      exact getD_zero_of_len_le h1b
    refine ⟨⟨?_, ?_⟩, ?_⟩
    · rw [hres]
      show WFstore ((s.blocks.resize (id / BITS + 1)).setWord _ _)
      exact BlockStore.setWord_WF hwf1 _ (by rw [mask_eq, BITS_eq]; exact hmlt)
    · show (s.insert id).1.len = popSum (s.insert id).1.words
      have hps := popSum_set (s.blocks.resize (id / BITS + 1)).words (id / 32)
        (2 ^ (id % 32)) hlen1
      rw [hgd, popcount32_zero] at hps
      have hpc1 : popcount32 (2 ^ (id % 32)) = 1 := popcount32_two_pow hbit32
      have hpsum : popSum (s.blocks.resize (id / BITS + 1)).words = popSum s.words := by
        rw [hw2, popSum_append, popSum_replicate_zero]
        omega
      have hlenres : (s.insert id).1.len = s.len + 1 := by rw [hres]
      rw [hlenres, hwords]
      omega
    · intro i
      rw [hwords, bitAt_set _ hlen1]
      by_cases hij : i / 32 = id / 32
      · rw [if_pos hij]
        rw [Nat.testBit_two_pow]
        have hold : bitAt s.words i = false := by
          unfold bitAt
          rw [BITS_eq, hij, getD_zero_of_len_le h1b]
          exact Nat.zero_testBit _
        rw [hold]
        by_cases he : i = id
        · subst he; simp
        · have hne : id % 32 ≠ i % 32 := mod_ne_of_div_eq_ne hij he
          simp [hne, he]
      · rw [if_neg hij, hw2, bitAt_append_zeros]
        have he : i ≠ id := ne_of_div_ne hij
        simp [he]

theorem remove_spec {s : IdSet} (hs : Inv s) (id : Nat) : Inv (s.remove id).1 := by
  obtain ⟨hwf, hlen⟩ := hs
  have hwfw : WFw s.words := wf_words hwf
  have hbit32 : id % 32 < 32 := Nat.mod_lt _ (by norm_num)
  have hmlt : (2 : Nat) ^ (id % 32) < 2 ^ 32 :=
    Nat.pow_lt_pow_right (by norm_num) hbit32
  by_cases h1 : id / BITS < s.words.length
  · by_cases h2 : (s.words.getD (id / BITS) 0) &&& mask (id % BITS) ≠ 0
    · have hres : (s.remove id).1 =
          ⟨s.blocks.setWord (id / BITS)
            ((s.words.getD (id / BITS) 0) &&& bnot32 (mask (id % BITS))),
            s.len - 1⟩ := by
        simp only [IdSet.remove, if_pos h1, if_pos h2]
      have hb1 : (s.words.getD (id / 32) 0).testBit (id % 32) = true := by
        rw [mask_eq, BITS_eq] at h2
        exact (land_mask_ne_zero _ _).1 h2
      have hlt := getD_lt_of_WF hwfw (id / 32)
      have hsplit := popcount32_and_split (w := s.words.getD (id / 32) 0) hlt hbit32
      have hmask1 := popcount32_masked hlt hb1
      have hlen1 : id / 32 < s.words.length := by rw [BITS_eq] at h1; exact h1
      have hps := popSum_set s.words (id / 32)
        ((s.words.getD (id / 32) 0) &&& bnot32 (2 ^ (id % 32))) hlen1
      have hge := popSum_ge_getD s.words (id / 32) hlen1
      constructor
      · rw [hres]
        show WFstore (s.blocks.setWord _ _)
        exact BlockStore.setWord_WF hwf _
          (Nat.and_lt_two_pow _ (bnot32_lt_two_pow (by rw [mask_eq, BITS_eq]; exact hmlt)))
      · show (s.remove id).1.len = popSum (s.remove id).1.words
        have hwords : (s.remove id).1.words = s.words.set (id / 32)
            ((s.words.getD (id / 32) 0) &&& bnot32 (2 ^ (id % 32))) := by
          rw [hres]
          show (s.blocks.setWord (id / BITS) _).words = _
          rw [BlockStore.setWord_words, mask_eq, BITS_eq]
          rfl
        have hlenres : (s.remove id).1.len = s.len - 1 := by rw [hres]
        rw [hlenres, hwords]
        omega
    · have hres : (s.remove id).1 = s := by
        simp only [IdSet.remove, if_pos h1, if_neg h2]
      rw [hres]
      exact ⟨hwf, hlen⟩
  · have hres : (s.remove id).1 = s := by
      simp only [IdSet.remove, if_neg h1]
    rw [hres]
    exact ⟨hwf, hlen⟩

theorem retainBits_spec (pred : Nat → Bool) (base : Nat) :
    ∀ (bits : List Nat) (w len : Nat), (∀ b ∈ bits, b < 32) → w < 2 ^ 32 →
    popcount32 w ≤ len →
    (IdSet.retainBits pred base bits w len).1 < 2 ^ 32 ∧
    popcount32 (IdSet.retainBits pred base bits w len).1 ≤ popcount32 w ∧
    (IdSet.retainBits pred base bits w len).2 + popcount32 w =
      len + popcount32 (IdSet.retainBits pred base bits w len).1 := by
  intro bits
  induction bits with
  | nil =>
    intro w len _ hw hle
    exact ⟨hw, le_refl _, by simp [IdSet.retainBits]⟩
  | cons bit rest ih =>
    intro w len hb hw hle
    have hbit : bit < 32 := hb bit (by simp)
    show (IdSet.retainBits pred base (bit :: rest) w len).1 < 2 ^ 32 ∧ _
    unfold IdSet.retainBits
    by_cases hc : w &&& mask bit ≠ 0 ∧ pred (base + bit) = false
    · rw [if_pos hc]
      have htb : w.testBit bit = true := by
        rw [mask_eq] at hc
        exact (land_mask_ne_zero _ _).1 hc.1
      have hsplit := popcount32_and_split hw hbit
      have hmask1 := popcount32_masked hw htb
      rw [mask_eq]
      have hw2 : w &&& bnot32 (2 ^ bit) < 2 ^ 32 :=
        Nat.and_lt_two_pow _
          (bnot32_lt_two_pow (Nat.pow_lt_pow_right (by norm_num) hbit))
      obtain ⟨ih1, ih2, ih3⟩ := ih (w &&& bnot32 (2 ^ bit)) (len - 1)
        (fun b hbm => hb b (by simp [hbm])) hw2 (by omega)
      exact ⟨ih1, by omega, by omega⟩
    · rw [if_neg hc]
      obtain ⟨ih1, ih2, ih3⟩ := ih w len (fun b hbm => hb b (by simp [hbm])) hw hle
      exact ⟨ih1, ih2, ih3⟩

theorem retainGo_spec (pred : Nat → Bool) :
    ∀ (ws : List Nat) (base len extra : Nat), WFw ws → len = popSum ws + extra →
    WFw (IdSet.retainGo pred ws base len).1 ∧
    (IdSet.retainGo pred ws base len).1.length = ws.length ∧
    (IdSet.retainGo pred ws base len).2 = popSum (IdSet.retainGo pred ws base len).1 + extra := by
  intro ws
  induction ws with
  | nil =>
    intro base len extra _ hlen
    refine ⟨fun b hb => by simp [IdSet.retainGo] at hb, rfl, ?_⟩
    simpa [IdSet.retainGo, popSum_nil] using hlen
  | cons w rest ih =>
    intro base len extra hwf hlen
    have hw : w < 2 ^ 32 := hwf w (by simp)
    have hble : popcount32 w ≤ len := by
      rw [hlen, popSum_cons]
      omega
    obtain ⟨h1, h2, h3⟩ := retainBits_spec pred base (List.range 32) w len
      (fun b hb => List.mem_range.1 hb) hw hble
    have hlen2 : (IdSet.retainBits pred base (List.range BITS) w len).2 =
        popSum rest +
        (popcount32 (IdSet.retainBits pred base (List.range BITS) w len).1 + extra) := by
      rw [popSum_cons] at hlen
      rw [BITS_eq]
      omega
    obtain ⟨ih1, ih2, ih3⟩ := ih (base + BITS)
      (IdSet.retainBits pred base (List.range BITS) w len).2
      (popcount32 (IdSet.retainBits pred base (List.range BITS) w len).1 + extra)
      (fun b hb => hwf b (by simp [hb])) hlen2
    have hgo : IdSet.retainGo pred (w :: rest) base len =
        ((IdSet.retainBits pred base (List.range BITS) w len).1 ::
          (IdSet.retainGo pred rest (base + BITS)
            (IdSet.retainBits pred base (List.range BITS) w len).2).1,
         (IdSet.retainGo pred rest (base + BITS)
            (IdSet.retainBits pred base (List.range BITS) w len).2).2) := rfl
    rw [hgo]
    refine ⟨?_, ?_, ?_⟩
    · intro b hb
      rcases List.mem_cons.1 hb with rfl | hb
      · rw [BITS_eq]; exact h1
      · exact ih1 b hb
    · simp [ih2]
    · simp only [popSum_cons]
      omega

theorem retain_spec {s : IdSet} (hs : Inv s) (pred : Nat → Bool) :
    Inv (s.retain pred) := by
  obtain ⟨hwf, hlen⟩ := hs
  obtain ⟨h1, h2, h3⟩ := retainGo_spec pred s.words 0 s.len 0 (wf_words hwf)
    (by omega)
  constructor
  · show WFstore (s.blocks.setWords _)
    exact BlockStore.setWords_WF hwf h2 h1
  · show (IdSet.retainGo pred s.words 0 s.len).2 =
      popSum (s.blocks.setWords (IdSet.retainGo pred s.words 0 s.len).1).words
    rw [BlockStore.setWords_words]
    omega

theorem clear_spec (s : IdSet) : Inv s.clear := by
  constructor
  · show WFstore s.blocks.clear
    cases s.blocks with
    | Stack arr =>
      refine ⟨by simp, fun b hb => ?_⟩
      rw [List.eq_of_mem_replicate hb]
      exact Nat.two_pow_pos 32
    | Heap vec c => exact ⟨fun b hb => by simp at hb, by simp⟩
  · show 0 = popSum s.blocks.clear.words
    cases s.blocks with
    | Stack arr =>
      show 0 = popSum (List.replicate SIZE 0)
      rw [popSum_replicate_zero]
    | Heap vec c => rfl

theorem reserve_spec {s : IdSet} (hs : Inv s) (cap : Nat) :
    Inv (s.reserve cap) := by
  obtain ⟨hwf, hlen⟩ := hs
  constructor
  · show WFstore (s.blocks.reserve (ceil_div cap BITS))
    cases hb : s.blocks with
    | Stack arr =>
      obtain ⟨hl, hbd⟩ := hb ▸ hwf
      simp only [BlockStore.reserve]
      by_cases hc : SIZE ≤ ceil_div cap BITS
      · rw [if_pos hc]
        exact ⟨hbd, Nat.le_max_right _ _⟩
      · rw [if_neg hc]
        exact ⟨hl, hbd⟩
    | Heap vec c =>
      obtain ⟨hbd, hl⟩ := hb ▸ hwf
      simp only [BlockStore.reserve]
      by_cases hc : SIZE ≤ ceil_div cap BITS
      · rw [if_pos hc]
        exact ⟨hbd, le_trans hl (Nat.le_max_left _ _)⟩
      · rw [if_neg hc]
        exact ⟨hbd, hl⟩
  · show s.len = popSum (s.blocks.reserve (ceil_div cap BITS)).words
    have hw : (s.blocks.reserve (ceil_div cap BITS)).words = s.blocks.words := by
      cases s.blocks with
      | Stack arr =>
        simp only [BlockStore.reserve]
        by_cases hc : SIZE ≤ ceil_div cap BITS
        · rw [if_pos hc]
          rfl
        · rw [if_neg hc]
      | Heap vec c =>
        simp only [BlockStore.reserve]
        by_cases hc : SIZE ≤ ceil_div cap BITS
        · rw [if_pos hc]
          rfl
        · rw [if_neg hc]
    rw [hw]
    exact hlen

theorem popSum_zeros {ws : List Nat} (h : ∀ b ∈ ws, b = 0) : popSum ws = 0 := by
  induction ws with
  | nil => rfl
  | cons w rest ih =>
    rw [popSum_cons, h w (by simp), popcount32_zero, ih (fun b hb => h b (by simp [hb]))]

theorem dropTrailingZeros_spec (v : List Nat) :
    ∃ zs, v = BlockStore.dropTrailingZeros v ++ zs ∧ ∀ b ∈ zs, b = 0 := by
  refine ⟨(v.reverse.takeWhile (fun b => b == 0)).reverse, ?_, ?_⟩
  · conv_lhs => rw [← List.reverse_reverse v,
      ← List.takeWhile_append_dropWhile (p := fun b => b == 0) (l := v.reverse)]
    rw [List.reverse_append]
    rfl
  · intro b hb
    rw [List.mem_reverse] at hb
    have := List.mem_takeWhile_imp hb
    simpa using this

theorem shrink_spec {s : IdSet} (hs : Inv s) : Inv s.shrink_to_fit := by
  obtain ⟨hwf, hlen⟩ := hs
  cases hb : s.blocks with
  | Stack arr =>
    have h1 : s.shrink_to_fit = ⟨BlockStore.Stack arr, s.len⟩ := by
      show (⟨s.blocks.shrink_to_fit, s.len⟩ : IdSet) = _
      rw [hb]
      rfl
    rw [h1]
    constructor
    · exact hb ▸ hwf
    · show s.len = popSum arr
      rw [hlen]
      show popSum s.blocks.words = popSum arr
      rw [hb]
      rfl
  | Heap vec c =>
    obtain ⟨hbd, _⟩ := hb ▸ hwf
    obtain ⟨zs, hsplit, hzs⟩ := dropTrailingZeros_spec vec
    have hpop : popSum vec = popSum (BlockStore.dropTrailingZeros vec) := by
      conv_lhs => rw [hsplit]
      rw [popSum_append, popSum_zeros hzs]
      omega
    have hmem : ∀ b ∈ BlockStore.dropTrailingZeros vec, b < 2 ^ 32 := by
      intro b hbm
      exact hbd b (by rw [hsplit]; exact List.mem_append.2 (Or.inl hbm))
    have h1 : s.shrink_to_fit =
        ⟨(BlockStore.Heap vec c).shrink_to_fit, s.len⟩ := by
      show (⟨s.blocks.shrink_to_fit, s.len⟩ : IdSet) = _
      rw [hb]
    rw [h1]
    show Inv ⟨(BlockStore.Heap vec c).shrink_to_fit, s.len⟩
    have hlenv : s.len = popSum vec := by
      rw [hlen]
      show popSum s.blocks.words = popSum vec
      rw [hb]
      rfl
    unfold BlockStore.shrink_to_fit
    by_cases hc : (BlockStore.dropTrailingZeros vec).length < SIZE
    · simp only [hc, if_true]
      constructor
      · refine ⟨by simp; omega, fun b hbm => ?_⟩
        rcases List.mem_append.1 hbm with hm | hm
        · exact hmem b hm
        · rw [List.eq_of_mem_replicate hm]
          exact Nat.two_pow_pos 32
      · show s.len = popSum (BlockStore.dropTrailingZeros vec ++ _)
        rw [popSum_append, popSum_replicate_zero, hlenv, hpop]
        omega
    · simp only [hc, if_false]
      exact ⟨⟨hmem, le_refl _⟩, by rw [hlenv, hpop]; rfl⟩

theorem fromBlocks_spec {l : List Nat} (hwf : WFw l) :
    WFstore (BlockStore.fromBlocks l) ∧
    popSum (BlockStore.fromBlocks l).words = popSum l := by
  unfold BlockStore.fromBlocks
  by_cases hc : l.length < SIZE
  · rw [if_pos hc]
    refine ⟨⟨by simp; omega, fun b hbm => ?_⟩, ?_⟩
    · rcases List.mem_append.1 hbm with hm | hm
      · exact hwf b hm
      · rw [List.eq_of_mem_replicate hm]
        exact Nat.two_pow_pos 32
    · show popSum (l ++ _) = popSum l
      rw [popSum_append, popSum_replicate_zero]
      omega
  · rw [if_neg hc]
    exact ⟨⟨hwf, le_refl _⟩, rfl⟩

theorem new_inv : Inv IdSet.new := by
  constructor
  · refine ⟨by simp, fun b hbm => ?_⟩
    rw [List.eq_of_mem_replicate hbm]
    exact Nat.two_pow_pos 32
  · show 0 = popSum (List.replicate SIZE 0)
    rw [popSum_replicate_zero]

theorem popSum_replicate (k x : Nat) : popSum (List.replicate k x) = k * popcount32 x := by
  induction k with
  | zero => rw [List.replicate_zero, popSum_nil]; omega
  | succ k ih =>
    rw [List.replicate_succ, popSum_cons, ih]
    ring

theorem popcount32_mask32 : popcount32 mask32 = 32 := by
  show popcount32 (2 ^ 32 - 1) = 32
  exact popcount32_two_pow_sub_one (le_refl 32)

theorem new_filled_inv (n : Nat) : Inv (IdSet.new_filled n) := by
  have hm32 : mask32 < 2 ^ 32 := mask32_lt
  have hbl : WFw (if n % BITS ≠ 0 then
      List.replicate (n / BITS) mask32 ++ [mask (n % BITS) - 1]
      else List.replicate (n / BITS) mask32) := by
    intro b hbm
    by_cases hc : n % BITS ≠ 0
    · rw [if_pos hc] at hbm
      rcases List.mem_append.1 hbm with hm | hm
      · rw [List.eq_of_mem_replicate hm]; exact hm32
      · rw [List.mem_singleton.1 hm, mask_eq]
        have : (2:Nat) ^ (n % BITS) ≤ 2 ^ 32 :=
          Nat.pow_le_pow_right (by norm_num) (by rw [BITS_eq]; omega)
        omega
    · rw [if_neg hc] at hbm
      rw [List.eq_of_mem_replicate hbm]
      exact hm32
  have hsum : popSum (if n % BITS ≠ 0 then
      List.replicate (n / BITS) mask32 ++ [mask (n % BITS) - 1]
      else List.replicate (n / BITS) mask32) = n := by
    by_cases hc : n % BITS ≠ 0
    · rw [if_pos hc, popSum_append, popSum_replicate, popcount32_mask32]
      have h1 : popSum [mask (n % BITS) - 1] = n % BITS := by
        rw [mask_eq]
        show popcount32 (2 ^ (n % BITS) - 1) + 0 = n % BITS
        rw [popcount32_two_pow_sub_one (by rw [BITS_eq]; omega)]
        omega
      rw [h1, BITS_eq]
      have := Nat.div_add_mod n 32
      omega
    · rw [if_neg hc, popSum_replicate, popcount32_mask32, BITS_eq]
      rw [BITS_eq] at hc
      have := Nat.div_add_mod n 32
      omega
  obtain ⟨hwf2, hsum2⟩ := fromBlocks_spec hbl
  refine ⟨hwf2, ?_⟩
  show n = popSum (BlockStore.fromBlocks
    (if n % BITS ≠ 0 then List.replicate (n / BITS) mask32 ++ [mask (n % BITS) - 1]
    else List.replicate (n / BITS) mask32)).words
  rw [hsum2, hsum]

theorem with_capacity_inv (n : Nat) : Inv (IdSet.with_capacity n) := by
  constructor
  · show WFstore (BlockStore.with_capacity (ceil_div n BITS))
    unfold BlockStore.with_capacity
    by_cases hc : ceil_div n BITS < SIZE
    · rw [if_pos hc]
      refine ⟨by simp, fun b hbm => ?_⟩
      rw [List.eq_of_mem_replicate hbm]
      exact Nat.two_pow_pos 32
    · rw [if_neg hc]
      exact ⟨fun b hbm => by simp at hbm, by simp⟩
  · show 0 = popSum (BlockStore.with_capacity (ceil_div n BITS)).words
    unfold BlockStore.with_capacity
    by_cases hc : ceil_div n BITS < SIZE
    · rw [if_pos hc]
      show 0 = popSum (List.replicate SIZE 0)
      rw [popSum_replicate_zero]
    · rw [if_neg hc]
      rfl

theorem from_bytes_inv {l : List Nat} (hwf : WFw l) : Inv (IdSet.from_bytes l) := by
  obtain ⟨hwf2, hsum2⟩ := fromBlocks_spec hwf
  refine ⟨hwf2, ?_⟩
  show popSum l = popSum (BlockStore.fromBlocks l).words
  rw [hsum2]

theorem extendIds_spec : ∀ (l : List Nat) {s : IdSet}, Inv s →
    Inv (s.extendIds l) ∧
    ∀ i, bitAt (s.extendIds l).words i = (bitAt s.words i || decide (i ∈ l)) := by
  intro l
  induction l with
  | nil =>
    intro s hs
    exact ⟨hs, fun i => by simp [IdSet.extendIds]⟩
  | cons x xs ih =>
    intro s hs
    obtain ⟨h1, h2⟩ := insert_spec hs x
    obtain ⟨ih1, ih2⟩ := ih (s := (s.insert x).1) h1
    have hstep : s.extendIds (x :: xs) = (s.insert x).1.extendIds xs := by
      unfold IdSet.extendIds
      rw [List.foldl_cons]
    rw [hstep]
    refine ⟨ih1, fun i => ?_⟩
    rw [ih2 i, h2 i]
    by_cases he : i = x
    · subst he; simp
    · by_cases hm : i ∈ xs <;> simp [he, hm]

theorem fromIds_spec (l : List Nat) :
    Inv (IdSet.fromIds l) ∧
    ∀ i, bitAt (IdSet.fromIds l).words i = decide (i ∈ l) := by
  have heq : IdSet.fromIds l = IdSet.new.extendIds l := rfl
  obtain ⟨h1, h2⟩ := extendIds_spec l new_inv
  rw [heq]
  refine ⟨h1, fun i => ?_⟩
  rw [h2 i]
  have hz : bitAt IdSet.new.words i = false := by
    show bitAt (List.replicate SIZE 0) i = false
    unfold bitAt
    rw [getD_replicate_zero]
    exact Nat.zero_testBit _
  rw [hz]
  simp

theorem bnot32_zero : bnot32 0 = mask32 := by
  unfold bnot32
  exact Nat.zero_xor mask32

theorem land_mask32 {w : Nat} (hw : w < 2 ^ 32) : w &&& mask32 = w := by
  apply Nat.eq_of_testBit_eq
  intro i
  rw [Nat.testBit_and, testBit_mask32]
  by_cases h : i < 32
  · simp [h]
  · rw [testBit_ge_32 hw (by omega)]
    simp

theorem popcount32_or_split {l r : Nat} (hl : l < 2 ^ 32) (hr : r < 2 ^ 32) :
    popcount32 (l ||| r) = popcount32 l + popcount32 (r &&& bnot32 l) := by
  have heq : l ||| r = l ||| (r &&& bnot32 l) := by
    apply Nat.eq_of_testBit_eq
    intro i
    rw [Nat.testBit_or, Nat.testBit_or, Nat.testBit_and, testBit_bnot32 hl]
    by_cases h : i < 32
    · simp only [h, decide_eq_true_eq, Bool.true_and]
      cases l.testBit i <;> cases r.testBit i <;> simp
    · rw [testBit_ge_32 hl (by omega), testBit_ge_32 hr (by omega)]
      simp
  rw [heq]
  apply popcount32_or_disjoint
  intro i hi
  obtain ⟨h1, h2⟩ := hi
  rw [Nat.testBit_and, testBit_bnot32 hl, Bool.and_eq_true] at h2
  obtain ⟨_, h3⟩ := h2
  rw [Bool.and_eq_true] at h3
  rw [h1] at h3
  simp at h3

theorem popcount32_diff_split {l r : Nat} (hl : l < 2 ^ 32) (hr : r < 2 ^ 32) :
    popcount32 l = popcount32 (l &&& r) + popcount32 (l &&& bnot32 r) := by
  have heq : l = (l &&& r) ||| (l &&& bnot32 r) := by
    apply Nat.eq_of_testBit_eq
    intro i
    rw [Nat.testBit_or, Nat.testBit_and, Nat.testBit_and, testBit_bnot32 hr]
    by_cases h : i < 32
    · simp only [h, decide_eq_true_eq, Bool.true_and]
      cases l.testBit i <;> cases r.testBit i <;> simp
    · rw [testBit_ge_32 hl (by omega)]
      simp
  conv_lhs => rw [heq]
  apply popcount32_or_disjoint
  intro i hi
  obtain ⟨h1, h2⟩ := hi
  rw [Nat.testBit_and, Bool.and_eq_true] at h1
  rw [Nat.testBit_and, testBit_bnot32 hr, Bool.and_eq_true] at h2
  obtain ⟨_, hc1⟩ := h1
  obtain ⟨_, hc2⟩ := h2
  rw [Bool.and_eq_true] at hc2
  rw [hc1] at hc2
  simp at hc2

theorem unionBlocks_nil_left : ∀ (rs : List Nat), unionBlocks [] rs = rs
  | [] => by simp [unionBlocks]
  | r :: rs => by rw [unionBlocks, unionBlocks_nil_left rs]

theorem unionBlocks_nil_right : ∀ (ls : List Nat), unionBlocks ls [] = ls
  | [] => by simp [unionBlocks]
  | l :: ls => by rw [unionBlocks, unionBlocks_nil_right ls]

theorem symDiffBlocks_nil_left : ∀ (rs : List Nat), symDiffBlocks [] rs = rs
  | [] => by simp [symDiffBlocks]
  | r :: rs => by rw [symDiffBlocks, symDiffBlocks_nil_left rs]

theorem symDiffBlocks_nil_right : ∀ (ls : List Nat), symDiffBlocks ls [] = ls
  | [] => by simp [symDiffBlocks]
  | l :: ls => by rw [symDiffBlocks, symDiffBlocks_nil_right ls]

theorem diffBlocks_nil_right : ∀ (ls : List Nat), WFw ls → diffBlocks ls [] = ls := by
  intro ls
  induction ls with
  | nil => intro _; rfl
  | cons l rest ih =>
    intro hwf
    rw [diffBlocks, bnot32_zero, land_mask32 (hwf l (by simp)),
      ih (fun b hb => hwf b (by simp [hb]))]

theorem bitAt_unionBlocks : ∀ (ls rs : List Nat), WFw ls → WFw rs → ∀ (i : Nat),
    bitAt (unionBlocks ls rs) i = (bitAt ls i || bitAt rs i) := by
  intro ls
  induction ls with
  | nil =>
    intro rs _ _ i
    rw [unionBlocks_nil_left, bitAt_nil]
    simp
  | cons l ls ih =>
    intro rs hl hr i
    cases rs with
    | nil =>
      rw [unionBlocks_nil_right, bitAt_nil]
      simp
    | cons r rs =>
      rw [unionBlocks, bitAt_cons, bitAt_cons, bitAt_cons]
      by_cases h : i < 32
      · simp only [h, if_true]
        rw [Nat.testBit_or]
      · simp only [h, if_false]
        exact ih rs (fun b hb => hl b (by simp [hb]))
          (fun b hb => hr b (by simp [hb])) (i - 32)

theorem bitAt_symDiffBlocks : ∀ (ls rs : List Nat), WFw ls → WFw rs → ∀ (i : Nat),
    bitAt (symDiffBlocks ls rs) i = (bitAt ls i).xor (bitAt rs i) := by
  intro ls
  induction ls with
  | nil =>
    intro rs _ _ i
    rw [symDiffBlocks_nil_left, bitAt_nil]
    simp
  | cons l ls ih =>
    intro rs hl hr i
    cases rs with
    | nil =>
      rw [symDiffBlocks_nil_right, bitAt_nil]
      simp
    | cons r rs =>
      rw [symDiffBlocks, bitAt_cons, bitAt_cons, bitAt_cons]
      by_cases h : i < 32
      · simp only [h, if_true]
        rw [Nat.testBit_xor]
      · simp only [h, if_false]
        exact ih rs (fun b hb => hl b (by simp [hb]))
          (fun b hb => hr b (by simp [hb])) (i - 32)

theorem bitAt_interBlocks : ∀ (ls rs : List Nat) (i : Nat),
    bitAt (interBlocks ls rs) i = (bitAt ls i && bitAt rs i) := by
  intro ls
  induction ls with
  | nil =>
    intro rs i
    have h0 : interBlocks [] rs = [] := by cases rs <;> simp [interBlocks]
    rw [h0, bitAt_nil]
    simp
  | cons l ls ih =>
    intro rs i
    cases rs with
    | nil =>
      have h0 : interBlocks (l :: ls) [] = [] := by simp [interBlocks]
      rw [h0, bitAt_nil]
      simp
    | cons r rs =>
      rw [interBlocks, bitAt_cons, bitAt_cons, bitAt_cons]
      by_cases h : i < 32
      · simp only [h, if_true]
        rw [Nat.testBit_and]
      · simp only [h, if_false]
        exact ih rs (i - 32)

theorem bitAt_diffBlocks : ∀ (ls rs : List Nat), WFw ls → WFw rs → ∀ (i : Nat),
    bitAt (diffBlocks ls rs) i = (bitAt ls i && !bitAt rs i) := by
  intro ls
  induction ls with
  | nil =>
    intro rs _ _ i
    have h0 : diffBlocks [] rs = [] := by simp [diffBlocks]
    rw [h0, bitAt_nil]
    simp
  | cons l ls ih =>
    intro rs hl hr i
    have hlw : l < 2 ^ 32 := hl l (by simp)
    cases rs with
    | nil =>
      rw [diffBlocks_nil_right _ hl, bitAt_nil]
      simp
    | cons r rs =>
      have hrw : r < 2 ^ 32 := hr r (by simp)
      rw [diffBlocks, bitAt_cons, bitAt_cons, bitAt_cons]
      by_cases h : i < 32
      · simp only [h, if_true]
        rw [Nat.testBit_and, testBit_bnot32 hrw]
        simp [h]
      · simp only [h, if_false]
        exact ih rs (fun b hb => hl b (by simp [hb]))
          (fun b hb => hr b (by simp [hb])) (i - 32)

theorem WFw_append_left {a b : List Nat} (h : WFw (a ++ b)) : WFw a :=
  fun x hx => h x (List.mem_append.2 (Or.inl hx))

theorem WFw_append_right {a b : List Nat} (h : WFw (a ++ b)) : WFw b :=
  fun x hx => h x (List.mem_append.2 (Or.inr hx))

theorem WFw_unionBlocks : ∀ (ls rs : List Nat), WFw ls → WFw rs →
    WFw (unionBlocks ls rs) := by
  intro ls
  induction ls with
  | nil => intro rs _ hr; rw [unionBlocks_nil_left]; exact hr
  | cons l ls ih =>
    intro rs hl hr
    cases rs with
    | nil => rw [unionBlocks_nil_right]; exact hl
    | cons r rs =>
      rw [unionBlocks]
      intro b hb
      rcases List.mem_cons.1 hb with rfl | hb
      · exact Nat.or_lt_two_pow (hl l (by simp)) (hr r (by simp))
      · exact ih rs (fun x hx => hl x (by simp [hx]))
          (fun x hx => hr x (by simp [hx])) b hb

theorem WFw_symDiffBlocks : ∀ (ls rs : List Nat), WFw ls → WFw rs →
    WFw (symDiffBlocks ls rs) := by
  intro ls
  induction ls with
  | nil => intro rs _ hr; rw [symDiffBlocks_nil_left]; exact hr
  | cons l ls ih =>
    intro rs hl hr
    cases rs with
    | nil => rw [symDiffBlocks_nil_right]; exact hl
    | cons r rs =>
      rw [symDiffBlocks]
      intro b hb
      rcases List.mem_cons.1 hb with rfl | hb
      · exact Nat.xor_lt_two_pow (hl l (by simp)) (hr r (by simp))
      · exact ih rs (fun x hx => hl x (by simp [hx]))
          (fun x hx => hr x (by simp [hx])) b hb

theorem WFw_interBlocks : ∀ (ls rs : List Nat), WFw ls → WFw (interBlocks ls rs) := by
  intro ls
  induction ls with
  | nil =>
    intro rs _
    have h0 : interBlocks [] rs = [] := by cases rs <;> simp [interBlocks]
    rw [h0]
    intro b hb
    simp at hb
  | cons l ls ih =>
    intro rs hl
    cases rs with
    | nil => intro b hb; simp [interBlocks] at hb
    | cons r rs =>
      rw [interBlocks]
      intro b hb
      rcases List.mem_cons.1 hb with rfl | hb
      · exact lt_of_le_of_lt Nat.and_le_left (hl l (by simp))
      · exact ih rs (fun x hx => hl x (by simp [hx])) b hb

theorem WFw_diffBlocks : ∀ (ls rs : List Nat), WFw ls → WFw (diffBlocks ls rs) := by
  intro ls
  induction ls with
  | nil => intro rs _ b hb; simp [diffBlocks] at hb
  | cons l ls ih =>
    intro rs hl
    have hlw : l < 2 ^ 32 := hl l (by simp)
    cases rs with
    | nil =>
      rw [diffBlocks]
      intro b hb
      rcases List.mem_cons.1 hb with rfl | hb
      · exact lt_of_le_of_lt Nat.and_le_left hlw
      · exact ih [] (fun x hx => hl x (by simp [hx])) b hb
    | cons r rs =>
      rw [diffBlocks]
      intro b hb
      rcases List.mem_cons.1 hb with rfl | hb
      · exact lt_of_le_of_lt Nat.and_le_left hlw
      · exact ih rs (fun x hx => hl x (by simp [hx])) b hb

theorem bitAt_out {ws : List Nat} {i : Nat} (h : ws.length ≤ i / 32) :
    bitAt ws i = false := by
  unfold bitAt
  rw [BITS_eq, getD_zero_of_len_le h]
  exact Nat.zero_testBit _

namespace BlockStore

theorem extendB_words (st : BlockStore) (l : List Nat) :
    (st.extendB l).words = st.words ++ l := by
  cases st <;> rfl

theorem extendB_WF {st : BlockStore} (hwf : WFstore st) {l : List Nat}
    (hl : WFw l) : WFstore (st.extendB l) := by
  cases st with
  | Stack arr =>
    obtain ⟨hlen, hb⟩ := hwf
    refine ⟨fun b hbm => ?_, ?_⟩
    · rcases List.mem_append.1 hbm with hm | hm
      · exact hb b hm
      · exact hl b hm
    · simp only [List.length_append]
      omega
  | Heap vec c =>
    obtain ⟨hb, hlen⟩ := hwf
    refine ⟨fun b hbm => ?_, ?_⟩
    · rcases List.mem_append.1 hbm with hm | hm
      · exact hb b hm
      · exact hl b hm
    · simp only [List.length_append]
      exact Nat.le_max_right _ _

end BlockStore

theorem getD_take_zeros : ∀ (arr : List Nat) (idx k j : Nat),
    ((arr.take idx) ++ List.replicate k 0).getD j 0 =
      if j < idx then arr.getD j 0 else 0 := by
  intro arr
  induction arr with
  | nil =>
    intro idx k j
    simp only [List.take_nil, List.nil_append, getD_replicate_zero]
    by_cases h : j < idx <;> simp [h]
  | cons a arr ih =>
    intro idx k j
    cases idx with
    | zero => simp
    | succ m =>
      cases j with
      | zero => simp [List.take_succ_cons]
      | succ n =>
        simp only [List.take_succ_cons, List.cons_append, List.getD_cons_succ]
        rw [ih m k n]
        by_cases h : n < m <;> simp [h, Nat.succ_lt_succ_iff]

theorem getD_take (arr : List Nat) (idx j : Nat) :
    (arr.take idx).getD j 0 = if j < idx then arr.getD j 0 else 0 := by
  have h := getD_take_zeros arr idx 0 j
  simpa using h

theorem drain_spec {st : BlockStore} (hwf : WFstore st) {idx : Nat}
    (hidx : idx ≤ st.words.length) :
    WFstore (st.drain idx).2 ∧
    popSum (st.drain idx).1 + popSum (st.drain idx).2.words = popSum st.words ∧
    ∀ j, (st.drain idx).2.words.getD j 0 =
      if j < idx then st.words.getD j 0 else 0 := by
  cases st with
  | Stack arr =>
    obtain ⟨hlen, hb⟩ := hwf
    have hidx2 : idx ≤ arr.length := hidx
    refine ⟨⟨?_, ?_⟩, ?_, ?_⟩
    · show (arr.take idx ++ List.replicate (arr.length - idx) 0).length = SIZE
      simp only [List.length_append, List.length_take, List.length_replicate]
      omega
    · intro b hbm
      rcases List.mem_append.1 hbm with hm | hm
      · exact hb b (List.take_subset _ _ hm)
      · rw [List.eq_of_mem_replicate hm]
        exact Nat.two_pow_pos 32
    · show popSum (arr.drop idx) +
        popSum (arr.take idx ++ List.replicate (arr.length - idx) 0) = popSum arr
      rw [popSum_append, popSum_replicate_zero]
      conv_rhs => rw [← List.take_append_drop idx arr]
      rw [popSum_append]
      omega
    · intro j
      exact getD_take_zeros arr idx (arr.length - idx) j
  | Heap vec c =>
    obtain ⟨hb, hlen⟩ := hwf
    have hidx2 : idx ≤ vec.length := hidx
    refine ⟨⟨?_, ?_⟩, ?_, ?_⟩
    · intro b hbm
      exact hb b (List.take_subset _ _ hbm)
    · show (vec.take idx).length ≤ c
      simp only [List.length_take]
      omega
    · show popSum (vec.drop idx) + popSum (vec.take idx) = popSum vec
      conv_rhs => rw [← List.take_append_drop idx vec]
      rw [popSum_append]
      omega
    · intro j
      exact getD_take vec idx j

theorem orGo_spec : ∀ (ls rs : List Nat) (len : Nat), WFw ls → WFw rs →
    (IdSet.orGo ls rs len).1 ++ (IdSet.orGo ls rs len).2.2.getD [] =
      unionBlocks ls rs ∧
    (IdSet.orGo ls rs len).2.1 + popSum ls = len + popSum (IdSet.orGo ls rs len).1 ∧
    (IdSet.orGo ls rs len).1.length = ls.length := by
  intro ls
  induction ls with
  | nil =>
    intro rs len _ _
    refine ⟨?_, by simp [IdSet.orGo, popSum_nil], rfl⟩
    show [] ++ rs = unionBlocks [] rs
    rw [List.nil_append, unionBlocks_nil_left]
  | cons l ls ih =>
    intro rs len hl hr
    cases rs with
    | nil =>
      refine ⟨?_, by simp [IdSet.orGo], rfl⟩
      show (l :: ls) ++ [] = unionBlocks (l :: ls) []
      rw [List.append_nil, unionBlocks_nil_right]
    | cons r rs =>
      have hlw : l < 2 ^ 32 := hl l (by simp)
      have hrw : r < 2 ^ 32 := hr r (by simp)
      obtain ⟨ih1, ih2, ih3⟩ := ih rs (len + popcount32 (r &&& bnot32 l))
        (fun b hb => hl b (by simp [hb])) (fun b hb => hr b (by simp [hb]))
      have h1 : (IdSet.orGo (l :: ls) (r :: rs) len).1 =
          (l ||| r) :: (IdSet.orGo ls rs (len + popcount32 (r &&& bnot32 l))).1 := rfl
      have h2 : (IdSet.orGo (l :: ls) (r :: rs) len).2.1 =
          (IdSet.orGo ls rs (len + popcount32 (r &&& bnot32 l))).2.1 := rfl
      have h3 : (IdSet.orGo (l :: ls) (r :: rs) len).2.2 =
          (IdSet.orGo ls rs (len + popcount32 (r &&& bnot32 l))).2.2 := rfl
      have hsplit := popcount32_or_split hlw hrw
      refine ⟨?_, ?_, ?_⟩
      · rw [h1, h3, unionBlocks, List.cons_append, ih1]
      · rw [h1, h2, popSum_cons, popSum_cons]
        omega
      · rw [h1, List.length_cons, List.length_cons]
        omega

theorem xorGo_spec : ∀ (ls rs : List Nat) (len : Nat), WFw ls → WFw rs →
    popSum ls ≤ len →
    (IdSet.xorGo ls rs len).1 ++ (IdSet.xorGo ls rs len).2.2.getD [] =
      symDiffBlocks ls rs ∧
    (IdSet.xorGo ls rs len).2.1 + popSum ls = len + popSum (IdSet.xorGo ls rs len).1 ∧
    (IdSet.xorGo ls rs len).1.length = ls.length := by
  intro ls
  induction ls with
  | nil =>
    intro rs len _ _ _
    refine ⟨?_, by simp [IdSet.xorGo, popSum_nil], rfl⟩
    show [] ++ rs = symDiffBlocks [] rs
    rw [List.nil_append, symDiffBlocks_nil_left]
  | cons l ls ih =>
    intro rs len hl hr hle
    cases rs with
    | nil =>
      refine ⟨?_, by simp [IdSet.xorGo], rfl⟩
      show (l :: ls) ++ [] = symDiffBlocks (l :: ls) []
      rw [List.append_nil, symDiffBlocks_nil_right]
    | cons r rs =>
      have hlw : l < 2 ^ 32 := hl l (by simp)
      have hrw : r < 2 ^ 32 := hr r (by simp)
      rw [popSum_cons] at hle
      obtain ⟨ih1, ih2, ih3⟩ := ih rs (len - popcount32 l + popcount32 (l ^^^ r))
        (fun b hb => hl b (by simp [hb])) (fun b hb => hr b (by simp [hb]))
        (by omega)
      have h1 : (IdSet.xorGo (l :: ls) (r :: rs) len).1 =
          (l ^^^ r) ::
            (IdSet.xorGo ls rs (len - popcount32 l + popcount32 (l ^^^ r))).1 := rfl
      have h2 : (IdSet.xorGo (l :: ls) (r :: rs) len).2.1 =
          (IdSet.xorGo ls rs (len - popcount32 l + popcount32 (l ^^^ r))).2.1 := rfl
      have h3 : (IdSet.xorGo (l :: ls) (r :: rs) len).2.2 =
          (IdSet.xorGo ls rs (len - popcount32 l + popcount32 (l ^^^ r))).2.2 := rfl
      refine ⟨?_, ?_, ?_⟩
      · rw [h1, h3, symDiffBlocks, List.cons_append, ih1]
      · rw [h1, h2, popSum_cons, popSum_cons]
        omega
      · rw [h1, List.length_cons, List.length_cons]
        omega

theorem subGo_spec : ∀ (ls rs : List Nat) (len : Nat), WFw ls → WFw rs →
    popSum ls ≤ len →
    WFw (IdSet.subGo ls rs len).1 ∧
    (IdSet.subGo ls rs len).2 + popSum ls = len + popSum (IdSet.subGo ls rs len).1 ∧
    (IdSet.subGo ls rs len).1.length = ls.length ∧
    ∀ i, bitAt (IdSet.subGo ls rs len).1 i = (bitAt ls i && !bitAt rs i) := by
  intro ls
  induction ls with
  | nil =>
    intro rs len _ _ _
    refine ⟨fun b hb => by simp [IdSet.subGo] at hb, by simp [IdSet.subGo, popSum_nil],
      rfl, fun i => ?_⟩
    show bitAt [] i = (bitAt [] i && !bitAt rs i)
    rw [bitAt_nil]
    simp
  | cons l ls ih =>
    intro rs len hl hr hle
    cases rs with
    | nil =>
      refine ⟨hl, by simp [IdSet.subGo], rfl, fun i => ?_⟩
      show bitAt (l :: ls) i = (bitAt (l :: ls) i && !bitAt [] i)
      rw [bitAt_nil]
      simp
    | cons r rs =>
      have hlw : l < 2 ^ 32 := hl l (by simp)
      have hrw : r < 2 ^ 32 := hr r (by simp)
      rw [popSum_cons] at hle
      have hsplit := popcount32_diff_split hlw hrw
      obtain ⟨ih1, ih2, ih3, ih4⟩ := ih rs (len - popcount32 (l &&& r))
        (fun b hb => hl b (by simp [hb])) (fun b hb => hr b (by simp [hb]))
        (by omega)
      have h1 : (IdSet.subGo (l :: ls) (r :: rs) len).1 =
          (l &&& bnot32 r) :: (IdSet.subGo ls rs (len - popcount32 (l &&& r))).1 := rfl
      have h2 : (IdSet.subGo (l :: ls) (r :: rs) len).2 =
          (IdSet.subGo ls rs (len - popcount32 (l &&& r))).2 := rfl
      refine ⟨?_, ?_, ?_, ?_⟩
      · rw [h1]
        intro b hb
        rcases List.mem_cons.1 hb with rfl | hb
        · exact lt_of_le_of_lt Nat.and_le_left hlw
        · exact ih1 b hb
      · rw [h1, h2, popSum_cons, popSum_cons]
        omega
      · rw [h1, List.length_cons, List.length_cons]
        omega
      · intro i
        rw [h1, bitAt_cons, bitAt_cons, bitAt_cons]
        by_cases h : i < 32
        · simp only [h, if_true]
          rw [Nat.testBit_and, testBit_bnot32 hrw]
          simp [h]
        · simp only [h, if_false]
          exact ih4 (i - 32)

theorem bitAt_zeros {ws : List Nat} (h : ∀ j, ws.getD j 0 = 0) (i : Nat) :
    bitAt ws i = false := by
  unfold bitAt
  rw [h]
  exact Nat.zero_testBit _

theorem andZip_spec : ∀ (ls rs : List Nat) (len : Nat), WFw ls → WFw rs →
    popSum ls ≤ len →
    WFw (IdSet.andZip ls rs len).1 ∧
    (IdSet.andZip ls rs len).2 + popSum ls =
      len + popSum (IdSet.andZip ls rs len).1 ∧
    (IdSet.andZip ls rs len).1.length = ls.length ∧
    ((∀ j, rs.length ≤ j → ls.getD j 0 = 0) →
      ∀ i, bitAt (IdSet.andZip ls rs len).1 i = (bitAt ls i && bitAt rs i)) := by
  intro ls
  induction ls with
  | nil =>
    intro rs len _ _ _
    refine ⟨fun b hb => by simp [IdSet.andZip] at hb,
      by simp [IdSet.andZip, popSum_nil], rfl, fun _ i => ?_⟩
    show bitAt [] i = (bitAt [] i && bitAt rs i)
    rw [bitAt_nil]
    simp
  | cons l ls ih =>
    intro rs len hl hr hle
    cases rs with
    | nil =>
      refine ⟨hl, by simp [IdSet.andZip], rfl, fun hz i => ?_⟩
      show bitAt (l :: ls) i = (bitAt (l :: ls) i && bitAt [] i)
      rw [bitAt_zeros (fun j => hz j (Nat.zero_le j)), bitAt_nil]
      simp
    | cons r rs =>
      have hlw : l < 2 ^ 32 := hl l (by simp)
      have hrw : r < 2 ^ 32 := hr r (by simp)
      rw [popSum_cons] at hle
      have hsplit := popcount32_diff_split hlw hrw
      obtain ⟨ih1, ih2, ih3, ih4⟩ := ih rs (len - popcount32 (l &&& bnot32 r))
        (fun b hb => hl b (by simp [hb])) (fun b hb => hr b (by simp [hb]))
        (by omega)
      have h1 : (IdSet.andZip (l :: ls) (r :: rs) len).1 =
          (l &&& r) :: (IdSet.andZip ls rs (len - popcount32 (l &&& bnot32 r))).1 := rfl
      have h2 : (IdSet.andZip (l :: ls) (r :: rs) len).2 =
          (IdSet.andZip ls rs (len - popcount32 (l &&& bnot32 r))).2 := rfl
      refine ⟨?_, ?_, ?_, ?_⟩
      · rw [h1]
        intro b hb
        rcases List.mem_cons.1 hb with rfl | hb
        · exact lt_of_le_of_lt Nat.and_le_left hlw
        · exact ih1 b hb
      · rw [h1, h2, popSum_cons, popSum_cons]
        omega
      · rw [h1, List.length_cons, List.length_cons]
        omega
      · intro hz i
        rw [h1, bitAt_cons, bitAt_cons, bitAt_cons]
        by_cases h : i < 32
        · simp only [h, if_true]
          rw [Nat.testBit_and]
        · simp only [h, if_false]
          exact ih4 (fun j hj => by
            have := hz (j + 1) (by simpa using Nat.succ_le_succ hj)
            simpa using this) (i - 32)

theorem inplace_union_spec {s : IdSet} (hs : Inv s) {rs : List Nat} (hr : WFw rs) :
    Inv (s.inplace_union rs) ∧
    (s.inplace_union rs).words = unionBlocks s.words rs := by
  obtain ⟨hwf, hlen⟩ := hs
  obtain ⟨ha, hb, hc⟩ := orGo_spec s.words rs s.len (wf_words hwf) hr
  rcases hgo : IdSet.orGo s.words rs s.len with ⟨ws, len2, flag⟩
  rw [hgo] at ha hb hc
  have hkey : s.inplace_union rs = (match (ws, len2, flag) with
    | (ws2, len3, none) => (⟨s.blocks.setWords ws2, len3⟩ : IdSet)
    | (ws2, len3, some rest) =>
        ⟨(s.blocks.setWords ws2).extendB rest, len3 + popSum rest⟩) := by
    unfold IdSet.inplace_union
    rw [hgo]
  cases flag with
  | none =>
    simp only [Option.getD_none, List.append_nil] at ha hb hc hkey
    have hwfu : WFw ws := ha ▸ WFw_unionBlocks s.words rs (wf_words hwf) hr
    have hwords : (s.inplace_union rs).words = ws := by
      rw [hkey]
      exact BlockStore.setWords_words s.blocks ws
    refine ⟨⟨?_, ?_⟩, by rw [hwords, ha]⟩
    · rw [hkey]
      exact BlockStore.setWords_WF hwf hc hwfu
    · rw [hkey]
      show len2 = popSum (s.blocks.setWords ws).words
      rw [BlockStore.setWords_words]
      omega
  | some rest =>
    simp only [Option.getD_some] at ha hb hc hkey
    have hwfu : WFw (ws ++ rest) :=
      ha ▸ WFw_unionBlocks s.words rs (wf_words hwf) hr
    have hwords : (s.inplace_union rs).words = ws ++ rest := by
      rw [hkey]
      show ((s.blocks.setWords ws).extendB rest).words = ws ++ rest
      rw [BlockStore.extendB_words, BlockStore.setWords_words]
    refine ⟨⟨?_, ?_⟩, by rw [hwords, ha]⟩
    · rw [hkey]
      exact BlockStore.extendB_WF
        (BlockStore.setWords_WF hwf hc (WFw_append_left hwfu))
        (WFw_append_right hwfu)
    · rw [hkey]
      show len2 + popSum rest =
        popSum ((s.blocks.setWords ws).extendB rest).words
      rw [BlockStore.extendB_words, BlockStore.setWords_words, popSum_append]
      omega

theorem inplace_symdiff_spec {s : IdSet} (hs : Inv s) {rs : List Nat}
    (hr : WFw rs) :
    Inv (s.inplace_symmetric_difference rs) ∧
    (s.inplace_symmetric_difference rs).words = symDiffBlocks s.words rs := by
  obtain ⟨hwf, hlen⟩ := hs
  obtain ⟨ha, hb, hc⟩ := xorGo_spec s.words rs s.len (wf_words hwf) hr (by omega)
  rcases hgo : IdSet.xorGo s.words rs s.len with ⟨ws, len2, flag⟩
  rw [hgo] at ha hb hc
  have hkey : s.inplace_symmetric_difference rs = (match (ws, len2, flag) with
    | (ws2, len3, none) => (⟨s.blocks.setWords ws2, len3⟩ : IdSet)
    | (ws2, len3, some rest) =>
        ⟨(s.blocks.setWords ws2).extendB rest, len3 + popSum rest⟩) := by
    unfold IdSet.inplace_symmetric_difference
    rw [hgo]
  cases flag with
  | none =>
    simp only [Option.getD_none, List.append_nil] at ha hb hc hkey
    have hwfu : WFw ws := ha ▸ WFw_symDiffBlocks s.words rs (wf_words hwf) hr
    have hwords : (s.inplace_symmetric_difference rs).words = ws := by
      rw [hkey]
      exact BlockStore.setWords_words s.blocks ws
    refine ⟨⟨?_, ?_⟩, by rw [hwords, ha]⟩
    · rw [hkey]
      exact BlockStore.setWords_WF hwf hc hwfu
    · rw [hkey]
      show len2 = popSum (s.blocks.setWords ws).words
      rw [BlockStore.setWords_words]
      omega
  | some rest =>
    simp only [Option.getD_some] at ha hb hc hkey
    have hwfu : WFw (ws ++ rest) :=
      ha ▸ WFw_symDiffBlocks s.words rs (wf_words hwf) hr
    have hwords : (s.inplace_symmetric_difference rs).words = ws ++ rest := by
      rw [hkey]
      show ((s.blocks.setWords ws).extendB rest).words = ws ++ rest
      rw [BlockStore.extendB_words, BlockStore.setWords_words]
    refine ⟨⟨?_, ?_⟩, by rw [hwords, ha]⟩
    · rw [hkey]
      exact BlockStore.extendB_WF
        (BlockStore.setWords_WF hwf hc (WFw_append_left hwfu))
        (WFw_append_right hwfu)
    · rw [hkey]
      show len2 + popSum rest =
        popSum ((s.blocks.setWords ws).extendB rest).words
      rw [BlockStore.extendB_words, BlockStore.setWords_words, popSum_append]
      omega

theorem inplace_difference_spec {s : IdSet} (hs : Inv s) {rs : List Nat}
    (hr : WFw rs) :
    Inv (s.inplace_difference rs) ∧
    ∀ i, bitAt (s.inplace_difference rs).words i =
      (bitAt s.words i && !bitAt rs i) := by
  obtain ⟨hwf, hlen⟩ := hs
  obtain ⟨h1, h2, h3, h4⟩ := subGo_spec s.words rs s.len (wf_words hwf) hr
    (by omega)
  have hkey : s.inplace_difference rs =
      ⟨s.blocks.setWords (IdSet.subGo s.words rs s.len).1,
       (IdSet.subGo s.words rs s.len).2⟩ := rfl
  rw [hkey]
  refine ⟨⟨BlockStore.setWords_WF hwf h3 h1, ?_⟩, fun i => ?_⟩
  · show (IdSet.subGo s.words rs s.len).2 =
      popSum (s.blocks.setWords (IdSet.subGo s.words rs s.len).1).words
    rw [BlockStore.setWords_words]
    omega
  · show bitAt (s.blocks.setWords (IdSet.subGo s.words rs s.len).1).words i = _
    rw [BlockStore.setWords_words]
    exact h4 i

theorem inplace_intersection_spec {s : IdSet} (hs : Inv s) {rs : List Nat}
    (hr : WFw rs) :
    Inv (s.inplace_intersection rs) ∧
    ∀ i, bitAt (s.inplace_intersection rs).words i =
      (bitAt s.words i && bitAt rs i) := by
  obtain ⟨hwf, hlen⟩ := hs
  by_cases hcase : rs.length < s.words.length
  · obtain ⟨hdwf, hdpop, hdget⟩ := drain_spec hwf (le_of_lt hcase)
    have hlen2 : s.len = popSum s.blocks.words := hlen
    have hwfd : WFw (s.blocks.drain rs.length).2.words := wf_words hdwf
    have hple : popSum (s.blocks.drain rs.length).2.words ≤
        s.len - popSum (s.blocks.drain rs.length).1 := by omega
    obtain ⟨h1, h2, h3, h4⟩ := andZip_spec (s.blocks.drain rs.length).2.words rs
      (s.len - popSum (s.blocks.drain rs.length).1) hwfd hr hple
    have hkey : s.inplace_intersection rs =
        ⟨(s.blocks.drain rs.length).2.setWords
          (IdSet.andZip (s.blocks.drain rs.length).2.words rs
            (s.len - popSum (s.blocks.drain rs.length).1)).1,
         (IdSet.andZip (s.blocks.drain rs.length).2.words rs
            (s.len - popSum (s.blocks.drain rs.length).1)).2⟩ := by
      simp only [IdSet.inplace_intersection, if_pos hcase]
    have hz : ∀ j, rs.length ≤ j →
        (s.blocks.drain rs.length).2.words.getD j 0 = 0 := by
      intro j hj
      rw [hdget j, if_neg (by omega)]
    rw [hkey]
    refine ⟨⟨BlockStore.setWords_WF hdwf h3 h1, ?_⟩, fun i => ?_⟩
    · show (IdSet.andZip (s.blocks.drain rs.length).2.words rs
          (s.len - popSum (s.blocks.drain rs.length).1)).2 =
        popSum ((s.blocks.drain rs.length).2.setWords
          (IdSet.andZip (s.blocks.drain rs.length).2.words rs
            (s.len - popSum (s.blocks.drain rs.length).1)).1).words
      rw [BlockStore.setWords_words]
      omega
    · show bitAt ((s.blocks.drain rs.length).2.setWords
          (IdSet.andZip (s.blocks.drain rs.length).2.words rs
            (s.len - popSum (s.blocks.drain rs.length).1)).1).words i = _
      rw [BlockStore.setWords_words, h4 hz i]
      have hbd : bitAt (s.blocks.drain rs.length).2.words i =
          if i / 32 < rs.length then bitAt s.words i else false := by
        unfold bitAt
        rw [BITS_eq, hdget (i / 32)]
        by_cases hii : i / 32 < rs.length
        · rw [if_pos hii, if_pos hii]
          rfl
        · rw [if_neg hii, if_neg hii]
          exact Nat.zero_testBit _
      rw [hbd]
      by_cases hii : i / 32 < rs.length
      · rw [if_pos hii]
      · rw [if_neg hii]
        have hro : bitAt rs i = false := bitAt_out (by omega)
        rw [hro]
        simp
  · have hz : ∀ j, rs.length ≤ j → s.words.getD j 0 = 0 := by
      intro j hj
      exact getD_zero_of_len_le (by omega)
    obtain ⟨h1, h2, h3, h4⟩ := andZip_spec s.words rs s.len (wf_words hwf) hr
      (by omega)
    have hkey : s.inplace_intersection rs =
        ⟨s.blocks.setWords (IdSet.andZip s.words rs s.len).1,
         (IdSet.andZip s.words rs s.len).2⟩ := by
      simp only [IdSet.inplace_intersection, if_neg hcase]
      rfl
    rw [hkey]
    refine ⟨⟨BlockStore.setWords_WF hwf h3 h1, ?_⟩, fun i => ?_⟩
    · show (IdSet.andZip s.words rs s.len).2 =
        popSum (s.blocks.setWords (IdSet.andZip s.words rs s.len).1).words
      rw [BlockStore.setWords_words]
      omega
    · show bitAt (s.blocks.setWords (IdSet.andZip s.words rs s.len).1).words i = _
      rw [BlockStore.setWords_words]
      exact h4 hz i

theorem reachable_inv : ∀ {s : IdSet}, Reachable s → Inv s := by
  intro s h
  induction h with
  | new => exact new_inv
  | new_filled n => exact new_filled_inv n
  | with_capacity n => exact with_capacity_inv n
  | from_bytes l hwf => exact from_bytes_inv hwf
  | insert s id _ ih => exact (insert_spec ih id).1
  | remove s id _ ih => exact remove_spec ih id
  | retain s pred _ ih => exact retain_spec ih pred
  | clear s _ _ => exact clear_spec s
  | reserve s cap _ ih => exact reserve_spec ih cap
  | shrink_to_fit s _ ih => exact shrink_spec ih
  | extendIds s l _ ih => exact (extendIds_spec l ih).1
  | inplace_union s t _ _ ihs iht =>
    exact (inplace_union_spec ihs (wf_words iht.1)).1
  | inplace_intersection s t _ _ ihs iht =>
    exact (inplace_intersection_spec ihs (wf_words iht.1)).1
  | inplace_difference s t _ _ ihs iht =>
    exact (inplace_difference_spec ihs (wf_words iht.1)).1
  | inplace_symmetric_difference s t _ _ ihs iht =>
    exact (inplace_symdiff_spec ihs (wf_words iht.1)).1

theorem popSum_eq_zero_of_getD : ∀ (r : List Nat), (∀ j, r.getD j 0 = 0) →
    popSum r = 0 := by
  intro r
  induction r with
  | nil => intro _; rfl
  | cons v r ih =>
    intro h
    rw [popSum_cons, show v = 0 from by simpa using h 0, popcount32_zero,
      ih (fun j => by simpa using h (j + 1))]

theorem popSum_eq_of_getD : ∀ (l r : List Nat),
    (∀ j, l.getD j 0 = r.getD j 0) → popSum l = popSum r := by
  intro l
  induction l with
  | nil =>
    intro r h
    rw [popSum_nil, Eq.symm (popSum_eq_zero_of_getD r (fun j => by
      have := h j
      simpa using this.symm))]
  | cons w l ih =>
    intro r h
    cases r with
    | nil =>
      rw [popSum_nil, popSum_eq_zero_of_getD (w :: l) (fun j => by simpa using h j)]
    | cons v r =>
      rw [popSum_cons, popSum_cons, show w = v from by simpa using h 0,
        ih r (fun j => by simpa using h (j + 1))]

theorem beq_of_bits {x y : IdSet} (hx : Inv x) (hy : Inv y)
    (h : ∀ i, bitAt x.words i = bitAt y.words i) : IdSet.beq x y = true := by
  have hg := getD_eq_of_bitAt_eq (wf_words hx.1) (wf_words hy.1) h
  unfold IdSet.beq
  rw [Bool.and_eq_true, IdSet.eqBlocks_iff]
  refine ⟨?_, hg⟩
  rw [beq_iff_eq, hx.2, hy.2]
  exact popSum_eq_of_getD _ _ hg

theorem bitAt_fromIds_of_blocks {bs : List Nat} (hwf : WFw bs) (i : Nat) :
    bitAt (IdSet.fromIds (idsFromBlocks bs)).words i = bitAt bs i := by
  rw [(fromIds_spec (idsFromBlocks bs)).2 i]
  by_cases hm : i ∈ idsFromBlocks bs
  · rw [decide_eq_true hm]
    exact ((mem_idsFromBlocks hwf i).1 hm).symm
  · rw [decide_eq_false hm]
    cases hb : bitAt bs i
    · rfl
    · exact absurd ((mem_idsFromBlocks hwf i).2 hb) hm

theorem getD_map_zero : ∀ (arr : List Nat) (i : Nat),
    (arr.map (fun _ => (0 : Nat))).getD i 0 = 0 := by
  intro arr
  induction arr with
  | nil => intro i; simp
  | cons a arr ih =>
    intro i
    cases i with
    | zero => rfl
    | succ i => exact ih i

theorem listResize_getD (l : List Nat) (n i : Nat) :
    (BlockStore.listResize l n).getD i 0 =
      if i < min l.length n then l.getD i 0 else 0 := by
  unfold BlockStore.listResize
  by_cases h : n ≤ l.length
  · rw [if_pos h, getD_take]
    have hmin : min l.length n = n := by omega
    rw [hmin]
  · rw [if_neg h, getD_append_zeros]
    have hmin : min l.length n = l.length := by omega
    rw [hmin]
    by_cases hi : i < l.length
    · rw [if_pos hi]
    · rw [if_neg hi, getD_zero_of_len_le (by omega)]

/-- C1, code bug witness: the is_superset of lib.rs is the negation of
other.is_subset(self), so on two empty sets it returns false even though
every element of the (empty) right set trivially belongs to the left set. -/
theorem C1_is_superset_empty_bug :
    IdSet.is_superset IdSet.new IdSet.new = false ∧
    ∀ i, IdSet.contains IdSet.new i = false := by
  constructor
  · decide
  · intro i
    rw [contains_eq_bitAt]
    show bitAt (List.replicate SIZE 0) i = false
    exact bitAt_zeros (fun j => getD_replicate_zero _ j) i

/-- The filled set with elements 0 to 95, used as the left set of the C2
failing input. -/
def A96 : IdSet := IdSet.new_filled 96

/-- The set with elements 96 to 191, used as the right set of the C2 failing
input. -/
def B96 : IdSet := IdSet.fromIds ((List.range 96).map (fun i => 96 + i))

set_option maxRecDepth 20000 in
/-- C2, code bug witness: A96 and B96 are disjoint (no id is in both), yet
is_disjoint returns false because the cardinality-versus-capacity guard
96 + 96 < max 192 192 fails and the guard is a conjunct of the result, so
the exact intersection scan is never consulted. -/
theorem C2_is_disjoint_bug :
    IdSet.is_disjoint A96 B96 = false ∧
    ∀ i, ¬(IdSet.contains A96 i = true ∧ IdSet.contains B96 i = true) := by
  have hA : A96.words = [mask32, mask32, mask32, 0, 0, 0] := by decide
  have hB : B96.words = [0, 0, 0, mask32, mask32, mask32] := by decide
  constructor
  · decide
  · intro i
    rintro ⟨hca, hcb⟩
    rw [contains_eq_bitAt] at hca hcb
    unfold bitAt at hca hcb
    rw [BITS_eq] at hca hcb
    rw [hA] at hca
    rw [hB] at hcb
    have h1 : i / 32 < 3 := by
      by_contra hge
      rcases Nat.lt_or_ge (i / 32) 6 with h6 | h6
      · have h3 : 3 ≤ i / 32 := by omega
        set j := i / 32 with hj
        interval_cases j <;> simp at hca
      · rw [getD_zero_of_len_le (by simpa using h6)] at hca
        rw [Nat.zero_testBit] at hca
        exact Bool.false_ne_true hca
    have h2 : 3 ≤ i / 32 := by
      by_contra hlt
      have h3 : i / 32 < 3 := by omega
      set j := i / 32 with hj
      interval_cases j <;> simp at hcb
    omega

/-- C5 counterexample: resizing the inline store holding the single set bit
in word 0 down to length 1 zeroes word 0 as well, so the first
min(oldLen, newLen) words are not preserved. -/
theorem C5_resize_counterexample :
    ¬(((BlockStore.Stack [1, 0, 0, 0, 0, 0]).resize 1).words.getD 0 0 =
      (BlockStore.Stack [1, 0, 0, 0, 0, 0]).words.getD 0 0) := by decide

/-- C5 amended: for heap storage, and for inline storage resized to at least
SIZE words (which promotes to heap), resize preserves the first
min(oldLen, newLen) words and reads beyond as zero; but resizing inline
storage below SIZE zeroes the entire inline buffer in place, keeping its
length. -/
theorem C5_resize_amended :
    ∀ (st : BlockStore) (n i : Nat),
      ((st.isStack = true ∧ n < SIZE) →
        ((st.resize n).words.length = st.words.length ∧
         (st.resize n).words.getD i 0 = 0)) ∧
      (¬(st.isStack = true ∧ n < SIZE) →
        (st.resize n).words.getD i 0 =
          if i < min st.words.length n then st.words.getD i 0 else 0) := by
  intro st n i
  cases st with
  | Stack arr =>
    constructor
    · rintro ⟨_, hn⟩
      have hres : (BlockStore.Stack arr).resize n =
          BlockStore.Stack (arr.map (fun _ => 0)) := by
        show (if n < SIZE then _ else _) = _
        rw [if_pos hn]
      rw [hres]
      refine ⟨?_, getD_map_zero arr i⟩
      show (arr.map (fun _ => 0)).length = arr.length
      exact List.length_map arr _
    · intro hneg
      have hn : ¬ n < SIZE := by
        by_contra hc
        exact hneg ⟨rfl, hc⟩
      have hres : (BlockStore.Stack arr).resize n =
          BlockStore.Heap (BlockStore.listResize arr n) (max n arr.length) := by
        show (if n < SIZE then _ else _) = _
        rw [if_neg hn]
      rw [hres]
      exact listResize_getD arr n i
  | Heap vec c =>
    constructor
    · rintro ⟨hfalse, _⟩
      simp [BlockStore.isStack] at hfalse
    · intro _
      show (BlockStore.listResize vec n).getD i 0 = _
      exact listResize_getD vec n i

/-- C6: equality of sets is the cardinality check plus word-by-word
comparison treating missing trailing words as zero on either side; in
particular the set built from the single zero word equals the empty set. -/
theorem C6_eq_semantics :
    (∀ a b : IdSet, IdSet.beq a b = true ↔
      (a.len = b.len ∧ ∀ j, a.words.getD j 0 = b.words.getD j 0)) ∧
    IdSet.beq (IdSet.from_bytes [0]) IdSet.new = true := by
  constructor
  · intro a b
    unfold IdSet.beq
    rw [Bool.and_eq_true, IdSet.eqBlocks_iff, beq_iff_eq]
  · decide

/-- C7: collecting any finite multiset of ids by repeated insert and then
iterating yields a strictly ascending sequence whose members are exactly the
ids of the multiset. -/
theorem C7_collect_then_iterate (L : List Nat) :
    ((IdSet.fromIds L).toList.Sorted (· < ·)) ∧
    ∀ x, x ∈ (IdSet.fromIds L).toList ↔ x ∈ L := by
  obtain ⟨hinv, hbits⟩ := fromIds_spec L
  have hwf : WFw (IdSet.fromIds L).words := wf_words hinv.1
  constructor
  · show (idsFromBlocks (IdSet.fromIds L).words).Sorted (· < ·)
    exact idsFromBlocks_sorted hwf
  · intro x
    show x ∈ idsFromBlocks (IdSet.fromIds L).words ↔ _
    rw [mem_idsFromBlocks hwf, hbits x]
    simp

/-- C3: for every set reachable by any sequence of public operations
(constructors, insert, remove, retain, clear, reserve, shrink_to_fit, extend
and the four in-place algebra operations), the cached cardinality len equals
the exact total popcount across all storage words. -/
theorem C3_len_is_popcount (s : IdSet) (h : Reachable s) :
    s.len = popSum s.words :=
  (reachable_inv h).2

theorem C3_len_is_popcount_witness :
    (IdSet.insert (IdSet.new_filled 40) 77).1.len =
      popSum (IdSet.insert (IdSet.new_filled 40) 77).1.words :=
  C3_len_is_popcount _ (Reachable.insert _ 77 (Reachable.new_filled 40))

/-- C4: for any two well-formed sets, each of the four in-place operations
produces a set equal, by the set's own equality test, to the set materialized
by collecting the corresponding non-mutating combinator view of the original
operands, and the resulting cardinality cache is exact. -/
theorem C4_inplace_matches_views (a b : IdSet) (ha : Inv a) (hb : Inv b) :
    (IdSet.beq (a.inplace_union b.words)
        (IdSet.fromIds (idsFromBlocks (unionBlocks a.words b.words))) = true ∧
      (a.inplace_union b.words).len =
        popSum (a.inplace_union b.words).words) ∧
    (IdSet.beq (a.inplace_intersection b.words)
        (IdSet.fromIds (idsFromBlocks (interBlocks a.words b.words))) = true ∧
      (a.inplace_intersection b.words).len =
        popSum (a.inplace_intersection b.words).words) ∧
    (IdSet.beq (a.inplace_difference b.words)
        (IdSet.fromIds (idsFromBlocks (diffBlocks a.words b.words))) = true ∧
      (a.inplace_difference b.words).len =
        popSum (a.inplace_difference b.words).words) ∧
    (IdSet.beq (a.inplace_symmetric_difference b.words)
        (IdSet.fromIds (idsFromBlocks (symDiffBlocks a.words b.words))) = true ∧
      (a.inplace_symmetric_difference b.words).len =
        popSum (a.inplace_symmetric_difference b.words).words) := by
  have hwa : WFw a.words := wf_words ha.1
  have hwb : WFw b.words := wf_words hb.1
  refine ⟨⟨?_, (inplace_union_spec ha hwb).1.2⟩,
    ⟨?_, (inplace_intersection_spec ha hwb).1.2⟩,
    ⟨?_, (inplace_difference_spec ha hwb).1.2⟩,
    ⟨?_, (inplace_symdiff_spec ha hwb).1.2⟩⟩
  · obtain ⟨hinv, hwords⟩ := inplace_union_spec ha hwb
    refine beq_of_bits hinv (fromIds_spec _).1 (fun i => ?_)
    rw [hwords,
      bitAt_fromIds_of_blocks (WFw_unionBlocks a.words b.words hwa hwb) i]
  · obtain ⟨hinv, hbits⟩ := inplace_intersection_spec ha hwb
    refine beq_of_bits hinv (fromIds_spec _).1 (fun i => ?_)
    rw [hbits i, bitAt_fromIds_of_blocks (WFw_interBlocks a.words b.words hwa) i,
      bitAt_interBlocks]
  · obtain ⟨hinv, hbits⟩ := inplace_difference_spec ha hwb
    refine beq_of_bits hinv (fromIds_spec _).1 (fun i => ?_)
    rw [hbits i, bitAt_fromIds_of_blocks (WFw_diffBlocks a.words b.words hwa) i,
      bitAt_diffBlocks a.words b.words hwa hwb i]
  · obtain ⟨hinv, hwords⟩ := inplace_symdiff_spec ha hwb
    refine beq_of_bits hinv (fromIds_spec _).1 (fun i => ?_)
    rw [hwords,
      bitAt_fromIds_of_blocks (WFw_symDiffBlocks a.words b.words hwa hwb) i]

theorem C4_inplace_matches_views_witness :
    IdSet.beq ((IdSet.insert IdSet.new 3).1.inplace_union
        (IdSet.insert IdSet.new 40).1.words)
      (IdSet.fromIds (idsFromBlocks (unionBlocks
        (IdSet.insert IdSet.new 3).1.words
        (IdSet.insert IdSet.new 40).1.words))) = true :=
  (C4_inplace_matches_views (IdSet.insert IdSet.new 3).1
    (IdSet.insert IdSet.new 40).1 (by decide) (by decide)).1.1

theorem complementNth_nil : ∀ n, complementNth [] n = bnot32 0 := by
  intro n
  induction n with
  | zero => rfl
  | succ n ih => exact ih

/-- C8 (spec-modelled: the Complement combinator exists only in the
specification, not under src, so complementNth is defined from the spec's
words): the n-th call on the complement of a source word-stream yields the
bitwise NOT of the n-th source word while the source lasts and the all-ones
word 2^32 - 1 afterwards; a word is produced for every n, so the stream never
terminates on its own. -/
theorem C8_complement_stream :
    ∀ (src : List Nat) (n : Nat),
      (n < src.length → complementNth src n = bnot32 (src.getD n 0)) ∧
      (src.length ≤ n → complementNth src n = bnot32 0) ∧
      bnot32 0 = 2 ^ 32 - 1 := by
  intro src
  induction src with
  | nil =>
    intro n
    exact ⟨fun h => absurd h (by simp), fun _ => complementNth_nil n, by decide⟩
  | cons b rest ih =>
    intro n
    cases n with
    | zero =>
      exact ⟨fun _ => rfl, fun h => absurd h (by simp), by decide⟩
    | succ n =>
      obtain ⟨h1, h2, h3⟩ := ih n
      refine ⟨fun h => ?_, fun h => ?_, h3⟩
      · show complementNth rest n = bnot32 (rest.getD n 0)
        exact h1 (by simpa using h)
      · show complementNth rest n = bnot32 0
        exact h2 (by simpa using h)

/-- C9: capacity() returns the word-capacity of the storage times 32,
saturating at the maximum usize value instead of wrapping when the product
would exceed it. -/
theorem C9_capacity_saturates :
    ∀ s : IdSet, s.capacity = min (s.blocks.capacity * BITS) usizeMax ∧
      s.capacity ≤ usizeMax := by
  intro s
  by_cases h : s.blocks.capacity * BITS ≤ usizeMax
  · have hc : s.capacity = s.blocks.capacity * BITS := by
      unfold IdSet.capacity checked_mul
      rw [if_pos h]
    rw [hc, Nat.min_eq_left h]
    exact ⟨rfl, h⟩
  · have hc : s.capacity = usizeMax := by
      unfold IdSet.capacity checked_mul
      rw [if_neg h]
    rw [hc, Nat.min_eq_right (Nat.le_of_not_le h)]
    exact ⟨rfl, Nat.le_refl _⟩

/-- C10: every set whose storage is the inline representation exposes exactly
SIZE = 6 words through as_blocks, regardless of logical content; in
particular the fresh empty set exposes six zero words rather than an empty
slice. -/
theorem C10_inline_six_words :
    (∀ s : IdSet, WFstore s.blocks → s.blocks.isStack = true →
      s.as_blocks.length = SIZE ∧ SIZE = 6) ∧
    IdSet.new.as_blocks = List.replicate 6 0 := by
  constructor
  · intro s hwf hstack
    refine ⟨?_, SIZE_eq⟩
    show s.blocks.words.length = SIZE
    cases hb : s.blocks with
    | Stack arr =>
      rw [hb] at hwf
      exact hwf.1
    | Heap v c =>
      rw [hb] at hstack
      simp [BlockStore.isStack] at hstack
  · show (List.replicate SIZE 0 : List Nat) = List.replicate 6 0
    rw [SIZE_eq]

end IdSetModel

